import Mathlib

/-!
Verification of the llama-conversation prompt-file toolchain.

Shallow embedding of `ollama-conversation.py` (prompt-file parsing, the
turn/message model, the response appender, the main control flow) and of
`llama-prompt-monitor.py` (job discovery, the busy gate).  Text is modelled
as `List Char`; Python functions become Lean functions; `sys.exit` error
paths and the uncaught `ValueError` path become an `Except` error type.
-/

namespace LC

/-- Python `str.strip` whitespace set (ASCII). -/
def isWs (c : Char) : Bool :=
  c = ' ' || c = '\t' || c = '\n' || c = '\r' || c = '\x0b' || c = '\x0c'

/-- Remove leading whitespace (Python `lstrip`). -/
def lstrip (l : List Char) : List Char := l.dropWhile isWs

/-- Remove trailing whitespace (Python `rstrip`). -/
def rstrip (l : List Char) : List Char := (l.reverse.dropWhile isWs).reverse

/-- Python `str.strip`: drop whitespace at both ends. -/
def strip (l : List Char) : List Char := rstrip (lstrip l)

/-- `listStartsWith p l` is Python's `l.startswith(p)` on character lists. -/
def listStartsWith : List Char → List Char → Bool
  | [], _ => true
  | _ :: _, [] => false
  | p :: ps, c :: cs => p = c && listStartsWith ps cs

/-- `listEndsWith s l` is Python's `l.endswith(s)`. -/
def listEndsWith (s l : List Char) : Bool := listStartsWith s.reverse l.reverse

/-- Python `str.split(sep)` for a one-character separator: always returns at
least one (possibly empty) segment. -/
def splitOn (sep : Char) : List Char → List (List Char)
  | [] => [[]]
  | c :: cs =>
    if c = sep then [] :: splitOn sep cs
    else
      match splitOn sep cs with
      | s :: rest => (c :: s) :: rest
      | [] => [[c]]

/-- Python `'\n'.join(xs)`. -/
def joinNL (xs : List (List Char)) : List Char := List.intercalate ['\n'] xs

/-- The `---HUMAN---` section marker. -/
def hMark : List Char := "---HUMAN---".toList

/-- The `---AI---` section marker. -/
def aMark : List Char := "---AI---".toList

/-- The `---` config/conversation separator. -/
def dash3 : List Char := "---".toList

/-- The `# Generated:` metadata-comment marker. -/
def genMarker : List Char := "# Generated:".toList

/-- Section kind: which marker preceded the content. -/
inductive SKind where
  | human
  | ai
deriving DecidableEq

/-- One token of the conversation block: a section marker or a plain char. -/
inductive Tok where
  | marker (k : SKind)
  | chr (c : Char)
deriving DecidableEq

/-- Fuel-driven scanner behind `tokenize` (structural recursion on fuel so
that the kernel can evaluate it). -/
def tokenizeF : Nat → List Char → List Tok
  | 0, _ => []
  | _ + 1, [] => []
  | fuel + 1, c :: cs =>
    if listStartsWith hMark (c :: cs) then
      .marker .human :: tokenizeF fuel ((c :: cs).drop 11)
    else if listStartsWith aMark (c :: cs) then
      .marker .ai :: tokenizeF fuel ((c :: cs).drop 8)
    else
      .chr c :: tokenizeF fuel cs

/-- Leftmost non-overlapping scan for the markers `---HUMAN---` / `---AI---`,
exactly the matches found by `re.split`/`re.findall` with the pattern
`---(HUMAN|AI)---`; all other characters are kept as `chr` tokens. -/
def tokenize (l : List Char) : List Tok := tokenizeF l.length l

/-- The content segments between markers (what `re.split` returns):
one segment before every marker and one after the last. -/
def splitToks : List Tok → List (List Char)
  | [] => [[]]
  | .marker _ :: ts => [] :: splitToks ts
  | .chr c :: ts =>
    match splitToks ts with
    | s :: rest => (c :: s) :: rest
    | [] => [[c]]

/-- The marker kinds in scan order (what `re.findall` returns). -/
def headersOf : List Tok → List SKind
  | [] => []
  | .marker k :: ts => k :: headersOf ts
  | .chr _ :: ts => headersOf ts

/-- A parsed conversation section: `{'type': ..., 'content': ...}`. -/
structure Sect where
  kind : SKind
  content : List Char
deriving DecidableEq

/-- Every way the scripts stop with an error.  The `sys.exit(1)` paths of
`ollama-conversation.py` get one constructor each; `uncaughtValueError`
models a `ValueError` escaping `int()`/`float()` in the config parser
(an uncaught exception, not a handled exit). -/
inductive PErr where
  | missingSeparator
  | uncaughtValueError
  | mismatchedSections
  | noSections
  | lastNotHuman
deriving DecidableEq

/-- `parse_conversation_sections` (ollama-conversation.py lines 71-93):
split the conversation text on the markers, strip and drop empty segments,
collect the marker kinds, fail when the two counts differ, otherwise pair
them up. -/
def parse_conversation_sections (t : List Char) : Except PErr (List Sect) :=
  if (headersOf (tokenize t)).length ≠
      (((splitToks (tokenize t)).map strip).filter (fun s => !s.isEmpty)).length then
    .error .mismatchedSections
  else
    .ok (((headersOf (tokenize t)).zip
      (((splitToks (tokenize t)).map strip).filter (fun s => !s.isEmpty))).map
        (fun p => ⟨p.1, strip p.2⟩))

/-- An Ollama chat message `{role, content}`. -/
structure Msg where
  role : List Char
  content : List Char
deriving DecidableEq

/-- The cleaning applied to an `ai` section's content inside
`build_ollama_messages`: drop every line whose stripped form starts with
`# Generated:`, rejoin, strip. -/
def cleanAiContent (content : List Char) : List Char :=
  strip (joinNL ((splitOn '\n' content).filter
    (fun line => !listStartsWith genMarker (strip line))))

/-- `build_ollama_messages` (ollama-conversation.py lines 96-122). -/
def build_ollama_messages : List Sect → List Msg
  | [] => []
  | s :: rest =>
    match s.kind with
    | .human => ⟨"user".toList, s.content⟩ :: build_ollama_messages rest
    | .ai =>
      let clean := cleanAiContent s.content
      if clean.isEmpty then build_ollama_messages rest
      else ⟨"assistant".toList, clean⟩ :: build_ollama_messages rest

instance {ε α} [DecidableEq ε] [DecidableEq α] : DecidableEq (Except ε α) := fun
  | .ok a, .ok b =>
    if h : a = b then .isTrue (by rw [h]) else .isFalse (by simp [h])
  | .error a, .error b =>
    if h : a = b then .isTrue (by rw [h]) else .isFalse (by simp [h])
  | .ok _, .error _ => .isFalse (by simp)
  | .error _, .ok _ => .isFalse (by simp)

/-- ASCII decimal digit test. -/
def isDigit (c : Char) : Bool := '0' ≤ c && c ≤ '9'

/-- Lower-case an ASCII letter (Python `str.lower` for the chars we meet). -/
def lowerChar (c : Char) : Char :=
  if 'A' ≤ c && c ≤ 'Z' then Char.ofNat (c.toNat + 32) else c

/-- Python `str.lower` on a char list. -/
def lowerL (l : List Char) : List Char := l.map lowerChar

/-- Split at the first occurrence of a character (Python `split(sep, 1)`),
`none` when the character does not occur. -/
def splitFirstChar (sep : Char) : List Char → Option (List Char × List Char)
  | [] => none
  | c :: cs =>
    if c = sep then some ([], cs)
    else (splitFirstChar sep cs).map (fun p => (c :: p.1, p.2))

/-- Tail of a digit run: digits with single underscores allowed between
digits (Python numeric-literal underscore rule). -/
def digitsTail : List Char → Bool
  | [] => true
  | '_' :: [] => false
  | '_' :: c :: rest => isDigit c && digitsTail rest
  | c :: rest => isDigit c && digitsTail rest

/-- A non-empty digit run, underscores allowed between digits. -/
def digitRun : List Char → Bool
  | [] => false
  | c :: rest => isDigit c && digitsTail rest

/-- Numeric value of a digit run (underscores skipped). -/
def natOfDigits (l : List Char) : Nat :=
  (l.filter (fun c => c ≠ '_')).foldl (fun acc c => 10 * acc + (c.toNat - 48)) 0

/-- Python `int(str)`: surrounding whitespace, optional sign, digit run.
`none` models `int()` raising `ValueError`. -/
def pyInt? (l0 : List Char) : Option Int :=
  let l := strip l0
  match l with
  | '+' :: rest => if digitRun rest then some (natOfDigits rest) else none
  | '-' :: rest => if digitRun rest then some (-(natOfDigits rest : Int)) else none
  | _ => if digitRun l then some (natOfDigits l) else none

/-- Mantissa of a Python float literal: digits, or digits on at least one
side of a single dot. -/
def mantissaOk (l : List Char) : Bool :=
  match splitFirstChar '.' l with
  | none => digitRun l
  | some (a, b) =>
    (a.isEmpty || digitRun a) && (b.isEmpty || digitRun b) && !(a.isEmpty && b.isEmpty)

/-- Unsigned body of a Python float literal: `inf`/`infinity`/`nan`
(case-insensitive) or mantissa with optional exponent. -/
def pyFloatBody (l : List Char) : Bool :=
  let low := lowerL l
  if low = "inf".toList || low = "infinity".toList || low = "nan".toList then true
  else
    match splitFirstChar 'e' low with
    | none => mantissaOk l
    | some (m, ex) =>
      mantissaOk m &&
        (match ex with
         | '+' :: r => digitRun r
         | '-' :: r => digitRun r
         | r => digitRun r)

/-- Whether Python `float(str)` succeeds (`false` models `ValueError`). -/
def pyFloatOk (l0 : List Char) : Bool :=
  let l := strip l0
  match l with
  | '+' :: rest => pyFloatBody rest
  | '-' :: rest => pyFloatBody rest
  | _ => pyFloatBody l

/-- A configuration value: parsed int, `None` (from the literal `none`),
a float kept as its raw text, or an uninterpreted string. -/
inductive CVal where
  | vint (n : Int)
  | vnone
  | vfloat (raw : List Char)
  | vstr (raw : List Char)
deriving DecidableEq

/-- The config dict: association list with dict-update semantics. -/
abbrev ConfigMap := List (List Char × CVal)

/-- Dict update: replace the existing binding or append a new one. -/
def updateCfg : ConfigMap → List Char → CVal → ConfigMap
  | [], k, v => [(k, v)]
  | (k', v') :: rest, k, v =>
    if k' = k then (k, v) :: rest else (k', v') :: updateCfg rest k v

/-- The config defaults of ollama-conversation.py (lines 40-47). -/
def defaultConfig : ConfigMap :=
  [("max_tokens".toList, .vint 256),
   ("temperature".toList, .vfloat "0.7".toList),
   ("top_p".toList, .vfloat "0.9".toList),
   ("server_url".toList, .vstr "http://localhost:11434".toList),
   ("model_name".toList, .vstr "llama3.1:8b".toList),
   ("timeout".toList, .vint 180)]

/-- `value.split('#')[0].strip()` applied only when `'#' in value`. -/
def stripComment (v : List Char) : List Char :=
  match splitFirstChar '#' v with
  | none => v
  | some (a, _) => strip a

/-- One iteration of the config loop (ollama-conversation.py lines 49-66):
skip blank / colon-free / comment lines, split `key: value`, strip the
inline comment, then convert by key type; a bad numeric value is the
uncaught `ValueError` from `int()`/`float()`. -/
def processLine (cfg : ConfigMap) (line0 : List Char) : Except PErr ConfigMap :=
  match splitFirstChar ':' (strip line0) with
  | none => .ok cfg
  | some (key0, value0) =>
    if listStartsWith ['#'] (strip line0) then .ok cfg
    else if strip key0 = "max_tokens".toList || strip key0 = "timeout".toList then
      if lowerL (stripComment (strip value0)) = "none".toList then
        .ok (updateCfg cfg (strip key0) .vnone)
      else
        match pyInt? (stripComment (strip value0)) with
        | some n => .ok (updateCfg cfg (strip key0) (.vint n))
        | none => .error .uncaughtValueError
    else if strip key0 = "temperature".toList || strip key0 = "top_p".toList then
      if pyFloatOk (stripComment (strip value0)) then
        .ok (updateCfg cfg (strip key0) (.vfloat (stripComment (strip value0))))
      else .error .uncaughtValueError
    else .ok (updateCfg cfg (strip key0) (.vstr (stripComment (strip value0))))

/-- Fold `processLine` over the config lines, propagating the first error. -/
def parseConfigLines : ConfigMap → List (List Char) → Except PErr ConfigMap
  | cfg, [] => .ok cfg
  | cfg, line :: rest =>
    match processLine cfg line with
    | .error e => .error e
    | .ok cfg' => parseConfigLines cfg' rest

/-- The config half of `parse_prompt_file`:
`for line in config_part.strip().split('\n')`. -/
def parseConfig (cfgPart : List Char) : Except PErr ConfigMap :=
  parseConfigLines defaultConfig (splitOn '\n' (strip cfgPart))

/-- Split at the first occurrence of the substring `---`
(Python `content.split('---', 1)`), `none` when `'---' not in content`. -/
def splitFirst3 : List Char → Option (List Char × List Char)
  | [] => none
  | c :: cs =>
    if listStartsWith dash3 (c :: cs) then some ([], (c :: cs).drop 3)
    else (splitFirst3 cs).map (fun p => (c :: p.1, p.2))

/-- `parse_prompt_file` (ollama-conversation.py lines 23-68) on raw text:
missing `---` is an error, otherwise parse the config part and strip the
conversation part. -/
def parse_prompt_file (content : List Char) : Except PErr (ConfigMap × List Char) :=
  match splitFirst3 content with
  | none => .error .missingSeparator
  | some (cfgPart, convPart) =>
    match parseConfig cfgPart with
    | .error e => .error e
    | .ok cfg => .ok (cfg, strip convPart)

/-- The pre-generation pipeline of `main` (ollama-conversation.py lines
346-365): parse the file, parse the sections, reject an empty section list,
reject a non-human tail, and only then build the messages handed to the
generation collaborator.  Reaching `.ok` models reaching the backend calls;
every `.error` is an exit before any generation request or file append. -/
def mainTail (cfg : ConfigMap) (conv : List Char) :
    Except PErr (ConfigMap × List Sect × List Msg) :=
  match parse_conversation_sections conv with
  | .error e => .error e
  | .ok sections =>
    match sections.getLast? with
    | none => .error .noSections
    | some lastS =>
      if lastS.kind ≠ .human then .error .lastNotHuman
      else .ok (cfg, sections, build_ollama_messages sections)

def mainFlow (content : List Char) :
    Except PErr (ConfigMap × List Sect × List Msg) :=
  match parse_prompt_file content with
  | .error e => .error e
  | .ok (cfg, conv) => mainTail cfg conv

/-- Token statistics as extracted from the backend response. -/
structure TokenInfo where
  prompt_tokens : Nat
  completion_tokens : Nat
  total_tokens : Nat
deriving DecidableEq

/-- Fuel-driven decimal rendering behind `natDigits`. -/
def natDigitsF : Nat → Nat → List Char
  | 0, _ => []
  | fuel + 1, n =>
    if n < 10 then [Char.ofNat (48 + n)]
    else natDigitsF fuel (n / 10) ++ [Char.ofNat (48 + n % 10)]

/-- Decimal rendering of a natural number (Python `f"{n}"` for an int). -/
def natDigits (n : Nat) : List Char := natDigitsF (n + 1) n

/-- The `stats_line` built in `append_response_to_file` (lines 129-133),
without its trailing newline; the formatted timestamp and the
`f"{generation_time:.1f}"` string are environment inputs taken as
parameters. -/
def statsBody (ts elapsed : List Char) (tok : Option TokenInfo) : List Char :=
  genMarker ++ [' '] ++ ts ++ " (".toList ++ elapsed ++ ['s'] ++
    (match tok with
     | none => []
     | some t =>
       ", ".toList ++ natDigits t.prompt_tokens ++ " prompt + ".toList ++
         natDigits t.completion_tokens ++ " completion = ".toList ++
         natDigits t.total_tokens ++ " tokens".toList) ++ [')']

/-- The exact text `append_response_to_file` (lines 125-139) appends to the
file: blank separator, `---AI---` line, stats line, stripped response,
trailing `---HUMAN---` line. -/
def appendBlock (ts elapsed : List Char) (tok : Option TokenInfo)
    (resp : List Char) : List Char :=
  "\n\n---AI---\n".toList ++ statsBody ts elapsed tok ++ ['\n'] ++
    strip resp ++ "\n\n---HUMAN---\n".toList

/-- The response cleaning in `main` (lines 491-501): strip, drop every line
whose stripped form starts with `# Generated:`, rejoin, strip. -/
def cleanGenerated (raw : List Char) : List Char :=
  strip (joinNL ((splitOn '\n' (strip raw)).filter
    (fun line => !listStartsWith genMarker (strip line))))

/-- What `main` appends for a raw backend response (lines 491-508): the
response is cleaned first, then handed to the appender. -/
def mainAppendText (ts elapsed : List Char) (tok : Option TokenInfo)
    (raw : List Char) : List Char :=
  appendBlock ts elapsed tok (cleanGenerated raw)

/-- `find_prompt_files` (llama-prompt-monitor.py lines 63-74) over a
directory listing: keep the names matching the `*.prompt` glob, then drop
any `.prompt.complete` name. -/
def find_prompt_files (listing : List (List Char)) : List (List Char) :=
  let all := listing.filter (fun p => listEndsWith ".prompt".toList p)
  all.filter (fun p => !listEndsWith ".prompt.complete".toList p)

/-- Monitor run mode: one sweep or the continuous loop. -/
inductive RunMode where
  | single
  | continuous
deriving DecidableEq

/-- Outcome of the monitor's `main` after the busy gate: `busyAbort` is
`sys.exit(2)`, `singleDone n` is a completed single pass over `n` files,
`loopForever` is entering the continuous loop. -/
inductive MonitorOutcome where
  | busyAbort
  | singleDone (count : Nat)
  | loopForever
deriving DecidableEq

/-- The busy gate and mode dispatch of the monitor's `main`
(llama-prompt-monitor.py lines 294-311): the busy signal is consulted once,
before the mode branch; the sweep itself is abstracted to its count. -/
def monitorMain (busy : Bool) (mode : RunMode) (sweepCount : Nat) :
    MonitorOutcome :=
  if busy then .busyAbort
  else
    match mode with
    | .single => .singleDone sweepCount
    | .continuous => .loopForever

/-- Process exit status of each monitor outcome (`none`: does not exit). -/
def monitorExitCode : MonitorOutcome → Option Nat
  | .busyAbort => some 2
  | .singleDone _ => some 0
  | .loopForever => none

/-- Merge two segment lists at the seam: the last segment of the left run
continues into the first segment of the right run. -/
def joinSegs : List (List Char) → List (List Char) → List (List Char)
  | [], u => u
  | [a], [] => [a]
  | [a], b :: bs => (a ++ b) :: bs
  | a :: x :: rest, u => a :: joinSegs (x :: rest) u

/-- No position of the list starts the substring `---`. -/
def noTripleDash : List Char → Bool
  | [] => true
  | c :: cs => !listStartsWith dash3 (c :: cs) && noTripleDash cs

/-- A config line that reaches the numeric conversions of `processLine`
with a value that is neither a valid number nor (where accepted) the
literal `none`: exactly the lines on which `int()`/`float()` raises. -/
def badNumericLine (line0 : List Char) : Bool :=
  match splitFirstChar ':' (strip line0) with
  | none => false
  | some (key0, value0) =>
    if listStartsWith ['#'] (strip line0) then false
    else if strip key0 = "max_tokens".toList || strip key0 = "timeout".toList then
      !(lowerL (stripComment (strip value0)) = "none".toList) &&
        (pyInt? (stripComment (strip value0))).isNone
    else if strip key0 = "temperature".toList || strip key0 = "top_p".toList then
      !pyFloatOk (stripComment (strip value0))
    else false

/-- No line of the text has a stripped form starting with `# Generated:`. -/
def noGenLines (s : List Char) : Prop :=
  ∀ l ∈ splitOn '\n' s, listStartsWith genMarker (strip l) = false

/-- The per-turn message projection that `build_ollama_messages` applies:
a human turn becomes a user message with unchanged content; an ai turn is
cleaned and dropped when the cleaned content is empty. -/
def msgOf (s : Sect) : Option Msg :=
  match s.kind with
  | .human => some ⟨"user".toList, s.content⟩
  | .ai =>
    if (cleanAiContent s.content).isEmpty then none
    else some ⟨"assistant".toList, cleanAiContent s.content⟩

theorem listStartsWith_length : ∀ p l : List Char, listStartsWith p l = true →
    p.length ≤ l.length := by
  intro p
  induction p with
  | nil => intro l _; simp
  | cons q ps ih =>
    intro l h
    cases l with
    | nil => simp [listStartsWith] at h
    | cons c cs =>
      simp only [listStartsWith, Bool.and_eq_true] at h
      have := ih cs h.2
      simp only [List.length_cons]
      omega

theorem listStartsWith_append_left : ∀ p a : List Char, listStartsWith p a = true →
    ∀ b, listStartsWith p (a ++ b) = true := by
  intro p
  induction p with
  | nil => intro a _ b; simp [listStartsWith]
  | cons q ps ih =>
    intro a h b
    cases a with
    | nil => simp [listStartsWith] at h
    | cons c cs =>
      simp only [listStartsWith, Bool.and_eq_true] at h
      simp only [List.cons_append, listStartsWith, Bool.and_eq_true]
      exact ⟨h.1, ih cs h.2 b⟩

theorem listStartsWith_append_stop : ∀ (p a : List Char) (c : Char) (r : List Char),
    c ∉ p → listStartsWith p (a ++ c :: r) = listStartsWith p a := by
  intro p
  induction p with
  | nil => intro a c r _; simp [listStartsWith]
  | cons q ps ih =>
    intro a c r hc
    cases a with
    | nil =>
      have hqc : ¬(q = c) := fun h => hc (h ▸ List.mem_cons_self q ps)
      simp [listStartsWith, hqc]
    | cons x a' =>
      simp only [List.cons_append, listStartsWith, List.append_eq]
      rw [ih a' c r (fun h => hc (List.mem_cons_of_mem q h))]

theorem listStartsWith_decomp : ∀ p l : List Char, listStartsWith p l = true →
    l = p ++ l.drop p.length := by
  intro p
  induction p with
  | nil => intro l _; simp
  | cons q ps ih =>
    intro l h
    cases l with
    | nil => simp [listStartsWith] at h
    | cons c cs =>
      simp only [listStartsWith, Bool.and_eq_true, decide_eq_true_eq] at h
      have := ih cs h.2
      simp only [List.length_cons, List.drop_succ_cons, List.cons_append]
      rw [h.1]
      exact congrArg (c :: ·) this

theorem listStartsWith_self_append (p x : List Char) :
    listStartsWith p (p ++ x) = true := by
  induction p with
  | nil => simp [listStartsWith]
  | cons q ps ih => simp [listStartsWith, ih]

theorem listStartsWith_append_of_le : ∀ p a : List Char, p.length ≤ a.length →
    ∀ b, listStartsWith p (a ++ b) = listStartsWith p a := by
  intro p
  induction p with
  | nil => intro a _ b; simp [listStartsWith]
  | cons q ps ih =>
    intro a h b
    cases a with
    | nil => simp at h
    | cons x a' =>
      simp only [List.cons_append, listStartsWith, List.append_eq]
      rw [ih a' (by simpa using h) b]

theorem drop_append_len (n : Nat) : ∀ (a b : List Char), n ≤ a.length →
    (a ++ b).drop n = a.drop n ++ b := by
  induction n with
  | zero => intro a b _; simp
  | succ m ih =>
    intro a b h
    cases a with
    | nil => simp at h
    | cons c cs =>
      simp only [List.cons_append, List.drop_succ_cons]
      exact ih cs b (by simpa using h)

theorem tokenizeF_fuel : ∀ f g : Nat, ∀ l : List Char,
    l.length ≤ f → l.length ≤ g → tokenizeF f l = tokenizeF g l := by
  intro f
  induction f with
  | zero =>
    intro g l hf _
    have : l = [] := List.length_eq_zero.mp (Nat.le_zero.mp hf)
    subst this
    cases g <;> rfl
  | succ n ih =>
    intro g l hf hg
    cases l with
    | nil => cases g <;> rfl
    | cons c cs =>
      cases g with
      | zero => simp at hg
      | succ m =>
        simp only [tokenizeF]
        by_cases h1 : listStartsWith hMark (c :: cs) = true
        · have hlen : 11 ≤ (c :: cs).length := by
            have := listStartsWith_length _ _ h1
            simpa [hMark] using this
          rw [h1]
          simp only [if_true]
          have hd : ((c :: cs).drop 11).length ≤ n := by
            simp only [List.length_drop]
            simp only [List.length_cons] at hf ⊢
            omega
          have hd2 : ((c :: cs).drop 11).length ≤ m := by
            simp only [List.length_drop]
            simp only [List.length_cons] at hg ⊢
            omega
          rw [ih m _ hd hd2]
        · rw [Bool.not_eq_true] at h1
          rw [h1]
          simp only [Bool.false_eq_true, if_false]
          by_cases h2 : listStartsWith aMark (c :: cs) = true
          · rw [h2]
            simp only [if_true]
            have hd : ((c :: cs).drop 8).length ≤ n := by
              simp only [List.length_drop, List.length_cons] at *
              omega
            have hd2 : ((c :: cs).drop 8).length ≤ m := by
              simp only [List.length_drop, List.length_cons] at *
              omega
            rw [ih m _ hd hd2]
          · rw [Bool.not_eq_true] at h2
            rw [h2]
            simp only [Bool.false_eq_true, if_false]
            have hd : cs.length ≤ n := by
              simp only [List.length_cons] at hf; omega
            have hd2 : cs.length ≤ m := by
              simp only [List.length_cons] at hg; omega
            rw [ih m _ hd hd2]

theorem tokenize_nil : tokenize [] = [] := rfl

theorem tokenize_cons (c : Char) (cs : List Char) : tokenize (c :: cs) =
    if listStartsWith hMark (c :: cs) then
      .marker .human :: tokenize ((c :: cs).drop 11)
    else if listStartsWith aMark (c :: cs) then
      .marker .ai :: tokenize ((c :: cs).drop 8)
    else .chr c :: tokenize cs := by
  show tokenizeF (c :: cs).length (c :: cs) = _
  have hlen : (c :: cs).length = cs.length + 1 := rfl
  rw [hlen]
  simp only [tokenizeF]
  by_cases h1 : listStartsWith hMark (c :: cs) = true
  · simp only [h1, if_true]
    rw [tokenizeF_fuel cs.length ((c :: cs).drop 11).length _ (by
      simp only [List.length_drop, List.length_cons]; omega) (Nat.le_refl _)]
    rfl
  · rw [Bool.not_eq_true] at h1
    simp only [h1, Bool.false_eq_true, if_false]
    by_cases h2 : listStartsWith aMark (c :: cs) = true
    · simp only [h2, if_true]
      rw [tokenizeF_fuel cs.length ((c :: cs).drop 8).length _ (by
        simp only [List.length_drop, List.length_cons]; omega) (Nat.le_refl _)]
      rfl
    · rw [Bool.not_eq_true] at h2
      simp only [h2, Bool.false_eq_true, if_false]
      rfl

theorem ws_not_in_hMark (x : Char) (h : isWs x = true) : x ∉ hMark := by
  intro hm
  have h2 : ∀ c ∈ hMark, isWs c = false := by decide
  rw [h2 x hm] at h
  exact Bool.false_ne_true h

theorem ws_not_in_aMark (x : Char) (h : isWs x = true) : x ∉ aMark := by
  intro hm
  have h2 : ∀ c ∈ aMark, isWs c = false := by decide
  rw [h2 x hm] at h
  exact Bool.false_ne_true h

theorem tokenize_append_aux (c : Char) (hh : c ∉ hMark) (ha : c ∉ aMark) :
    ∀ (n : Nat) (a r : List Char), a.length ≤ n →
    tokenize (a ++ c :: r) = tokenize a ++ tokenize (c :: r) := by
  intro n
  induction n with
  | zero =>
    intro a r h
    have : a = [] := List.length_eq_zero.mp (Nat.le_zero.mp h)
    subst this
    simp [tokenize_nil]
  | succ m ih =>
    intro a r h
    cases a with
    | nil => simp [tokenize_nil]
    | cons x a' =>
      have e1 : (x :: a') ++ c :: r = x :: (a' ++ c :: r) := rfl
      rw [e1, tokenize_cons, tokenize_cons x a']
      rw [show x :: (a' ++ c :: r) = (x :: a') ++ c :: r from rfl]
      rw [listStartsWith_append_stop hMark (x :: a') c r hh,
          listStartsWith_append_stop aMark (x :: a') c r ha]
      by_cases h1 : listStartsWith hMark (x :: a') = true
      · simp only [h1, if_true]
        have hlen : 11 ≤ (x :: a').length := by
          have := listStartsWith_length _ _ h1
          simpa [hMark] using this
        rw [drop_append_len 11 (x :: a') (c :: r) hlen]
        rw [ih ((x :: a').drop 11) r (by
          simp only [List.length_drop, List.length_cons]
          simp only [List.length_cons] at h
          omega)]
        simp
      · rw [Bool.not_eq_true] at h1
        simp only [h1, Bool.false_eq_true, if_false]
        by_cases h2 : listStartsWith aMark (x :: a') = true
        · simp only [h2, if_true]
          have hlen : 8 ≤ (x :: a').length := by
            have := listStartsWith_length _ _ h2
            simpa [aMark] using this
          rw [drop_append_len 8 (x :: a') (c :: r) hlen]
          rw [ih ((x :: a').drop 8) r (by
            simp only [List.length_drop, List.length_cons]
            simp only [List.length_cons] at h
            omega)]
          simp
        · rw [Bool.not_eq_true] at h2
          simp only [h2, Bool.false_eq_true, if_false]
          rw [ih a' r (by simp only [List.length_cons] at h; omega)]
          simp

/-- A marker occurrence cannot cross a boundary whose first character is in
no marker, so tokenizing distributes over such a split. -/
theorem tokenize_append (c : Char) (hh : c ∉ hMark) (ha : c ∉ aMark)
    (a r : List Char) :
    tokenize (a ++ c :: r) = tokenize a ++ tokenize (c :: r) :=
  tokenize_append_aux c hh ha a.length a r (Nat.le_refl _)

theorem listStartsWith_ne_head (q : Char) (ps : List Char) (x : Char)
    (xs : List Char) (h : q ≠ x) : listStartsWith (q :: ps) (x :: xs) = false := by
  simp [listStartsWith, h]

theorem hMark_chars :
    hMark = '-' :: '-' :: '-' :: 'H' :: 'U' :: 'M' :: 'A' :: 'N' :: '-' :: '-' :: '-' :: [] := rfl

theorem aMark_chars :
    aMark = '-' :: '-' :: '-' :: 'A' :: 'I' :: '-' :: '-' :: '-' :: [] := rfl

theorem tokenize_not_marker_head (x : Char) (xs : List Char)
    (hx : x ≠ '-') : tokenize (x :: xs) = .chr x :: tokenize xs := by
  rw [tokenize_cons]
  rw [hMark_chars, listStartsWith_ne_head _ _ _ _ (fun h => hx h.symm)]
  rw [aMark_chars, listStartsWith_ne_head _ _ _ _ (fun h => hx h.symm)]
  simp

theorem tokenize_ws_run : ∀ (w rest : List Char),
    (∀ x ∈ w, isWs x = true) →
    tokenize (w ++ rest) = w.map .chr ++ tokenize rest := by
  intro w
  induction w with
  | nil => intro rest _; simp
  | cons x w' ih =>
    intro rest hw
    have hx : isWs x = true := hw x (List.mem_cons_self x w')
    have hxd : x ≠ '-' := by
      intro h
      rw [h] at hx
      exact absurd hx (by decide)
    rw [List.cons_append, tokenize_not_marker_head x _ hxd,
        ih rest (fun y hy => hw y (List.mem_cons_of_mem x hy))]
    simp

theorem tokenize_nl (z : List Char) : tokenize ('\n' :: z) = .chr '\n' :: tokenize z :=
  tokenize_not_marker_head '\n' z (by decide)

theorem tokenize_hMark_head (x : List Char) :
    tokenize (hMark ++ x) = .marker .human :: tokenize x := by
  rw [hMark_chars]
  rw [show ('-' :: '-' :: '-' :: 'H' :: 'U' :: 'M' :: 'A' :: 'N' :: '-' :: '-' :: '-' :: []) ++ x =
    '-' :: ('-' :: '-' :: 'H' :: 'U' :: 'M' :: 'A' :: 'N' :: '-' :: '-' :: '-' :: x) from rfl]
  rw [tokenize_cons]
  have h1 : listStartsWith hMark
      ('-' :: '-' :: '-' :: 'H' :: 'U' :: 'M' :: 'A' :: 'N' :: '-' :: '-' :: '-' :: x) = true := by
    rw [hMark_chars]; simp [listStartsWith]
  rw [h1]
  simp

theorem tokenize_aMark_head (x : List Char) :
    tokenize (aMark ++ x) = .marker .ai :: tokenize x := by
  rw [aMark_chars]
  rw [show ('-' :: '-' :: '-' :: 'A' :: 'I' :: '-' :: '-' :: '-' :: []) ++ x =
    '-' :: ('-' :: '-' :: 'A' :: 'I' :: '-' :: '-' :: '-' :: x) from rfl]
  rw [tokenize_cons]
  have h1 : listStartsWith hMark
      ('-' :: '-' :: '-' :: 'A' :: 'I' :: '-' :: '-' :: '-' :: x) = false := by
    rw [hMark_chars]; simp [listStartsWith]
  have h2 : listStartsWith aMark
      ('-' :: '-' :: '-' :: 'A' :: 'I' :: '-' :: '-' :: '-' :: x) = true := by
    rw [aMark_chars]; simp [listStartsWith]
  rw [h1, h2]
  simp

theorem joinSegs_nil_left (u : List (List Char)) : joinSegs [] u = u := rfl

theorem joinSegs_single (a : List Char) (b : List Char) (bs : List (List Char)) :
    joinSegs [a] (b :: bs) = (a ++ b) :: bs := rfl

theorem joinSegs_cons_cons (a x : List Char) (rest u : List (List Char)) :
    joinSegs (a :: x :: rest) u = a :: joinSegs (x :: rest) u := rfl

theorem splitToks_ne_nil : ∀ ts : List Tok, splitToks ts ≠ [] := by
  intro ts
  induction ts with
  | nil => simp [splitToks]
  | cons t ts' ih =>
    cases t with
    | marker k => simp [splitToks]
    | chr c =>
      simp only [splitToks]
      cases h : splitToks ts' with
      | nil => exact absurd h ih
      | cons s rest => simp

theorem splitToks_append : ∀ t u : List Tok,
    splitToks (t ++ u) = joinSegs (splitToks t) (splitToks u) := by
  intro t
  induction t with
  | nil =>
    intro u
    obtain ⟨b, bs, h⟩ : ∃ b bs, splitToks u = b :: bs := by
      cases h : splitToks u with
      | nil => exact absurd h (splitToks_ne_nil u)
      | cons b bs => exact ⟨b, bs, rfl⟩
    simp [splitToks, h, joinSegs]
  | cons x t' ih =>
    intro u
    cases x with
    | marker k =>
      rw [show (Tok.marker k :: t') ++ u = Tok.marker k :: (t' ++ u) from rfl]
      simp only [splitToks]
      rw [ih u]
      cases h : splitToks t' with
      | nil => exact absurd h (splitToks_ne_nil t')
      | cons s rest => rw [joinSegs_cons_cons]
    | chr c =>
      rw [show (Tok.chr c :: t') ++ u = Tok.chr c :: (t' ++ u) from rfl]
      simp only [splitToks]
      rw [ih u]
      cases h : splitToks t' with
      | nil => exact absurd h (splitToks_ne_nil t')
      | cons s rest =>
        cases rest with
        | nil =>
          cases hu : splitToks u with
          | nil => exact absurd hu (splitToks_ne_nil u)
          | cons b bs => rw [joinSegs_single, joinSegs_single]; simp
        | cons y ys =>
          rw [joinSegs_cons_cons, joinSegs_cons_cons]

theorem splitToks_map_chr : ∀ xs : List Char, splitToks (xs.map .chr) = [xs] := by
  intro xs
  induction xs with
  | nil => simp [splitToks]
  | cons c cs ih => simp [splitToks, ih]

theorem splitToks_map_chr_marker (xs : List Char) (k : SKind) (rest : List Tok) :
    splitToks (xs.map .chr ++ .marker k :: rest) = xs :: splitToks rest := by
  rw [splitToks_append, splitToks_map_chr]
  show joinSegs [xs] (splitToks (Tok.marker k :: rest)) = xs :: splitToks rest
  simp only [splitToks]
  cases h : splitToks rest with
  | nil => exact absurd h (splitToks_ne_nil rest)
  | cons s r2 => simp [joinSegs]

theorem headersOf_append : ∀ t u : List Tok,
    headersOf (t ++ u) = headersOf t ++ headersOf u := by
  intro t
  induction t with
  | nil => intro u; rfl
  | cons x t' ih =>
    intro u
    cases x with
    | marker k => simp [headersOf, ih]
    | chr c => simp [headersOf, ih]

theorem headersOf_map_chr (xs : List Char) : headersOf (xs.map .chr) = [] := by
  induction xs with
  | nil => rfl
  | cons c cs ih => simpa [headersOf] using ih

theorem splitOn_ne_nil (sep : Char) : ∀ l : List Char, splitOn sep l ≠ [] := by
  intro l
  induction l with
  | nil => simp [splitOn]
  | cons c cs ih =>
    simp only [splitOn]
    by_cases h : c = sep
    · simp [h]
    · simp only [h, if_false]
      cases h2 : splitOn sep cs with
      | nil => exact absurd h2 ih
      | cons s rest => simp

theorem splitOn_append (sep : Char) : ∀ a b : List Char,
    splitOn sep (a ++ b) = joinSegs (splitOn sep a) (splitOn sep b) := by
  intro a
  induction a with
  | nil =>
    intro b
    obtain ⟨s, rest, h⟩ : ∃ s rest, splitOn sep b = s :: rest := by
      cases h : splitOn sep b with
      | nil => exact absurd h (splitOn_ne_nil sep b)
      | cons s rest => exact ⟨s, rest, rfl⟩
    simp [splitOn, h, joinSegs]
  | cons c cs ih =>
    intro b
    rw [show (c :: cs) ++ b = c :: (cs ++ b) from rfl]
    simp only [splitOn]
    rw [ih b]
    by_cases h : c = sep
    · simp only [h, if_true]
      cases h2 : splitOn sep cs with
      | nil => exact absurd h2 (splitOn_ne_nil sep cs)
      | cons s rest => rw [joinSegs_cons_cons]
    · simp only [h, if_false]
      cases h2 : splitOn sep cs with
      | nil => exact absurd h2 (splitOn_ne_nil sep cs)
      | cons s rest =>
        cases rest with
        | nil =>
          cases h3 : splitOn sep b with
          | nil => exact absurd h3 (splitOn_ne_nil sep b)
          | cons y ys => rw [joinSegs_single, joinSegs_single]; simp
        | cons y ys =>
          rw [joinSegs_cons_cons, joinSegs_cons_cons]

theorem splitOn_cons_sep (sep : Char) (r : List Char) :
    splitOn sep (sep :: r) = [] :: splitOn sep r := by
  simp [splitOn]

theorem splitOn_no_sep (sep : Char) : ∀ l : List Char, sep ∉ l →
    splitOn sep l = [l] := by
  intro l
  induction l with
  | nil => intro _; rfl
  | cons c cs ih =>
    intro h
    have hc : ¬(c = sep) := fun he => h (he ▸ List.mem_cons_self c cs)
    simp only [splitOn, hc, if_false]
    rw [ih (fun hm => h (List.mem_cons_of_mem c hm))]

theorem joinSegs_nil_sep : ∀ (a : List (List Char)), a ≠ [] →
    ∀ b, joinSegs a ([] :: b) = a ++ b := by
  intro a
  induction a with
  | nil => intro h; exact absurd rfl h
  | cons x rest ih =>
    intro _ b
    cases rest with
    | nil => simp [joinSegs]
    | cons y ys =>
      rw [joinSegs_cons_cons, ih (by simp) b]
      rfl

theorem splitOn_append_sep (sep : Char) (a b : List Char) :
    splitOn sep (a ++ sep :: b) = splitOn sep a ++ splitOn sep b := by
  rw [splitOn_append, splitOn_cons_sep, joinSegs_nil_sep _ (splitOn_ne_nil sep a)]

theorem splitOn_mem_not_sep (sep : Char) : ∀ (l s : List Char),
    s ∈ splitOn sep l → sep ∉ s := by
  intro l
  induction l with
  | nil =>
    intro s hs
    simp [splitOn] at hs
    simp [hs]
  | cons c cs ih =>
    intro s hs
    simp only [splitOn] at hs
    by_cases h : c = sep
    · rw [if_pos h] at hs
      rcases List.mem_cons.mp hs with h1 | h1
      · simp [h1]
      · exact ih s h1
    · rw [if_neg h] at hs
      cases h2 : splitOn sep cs with
      | nil => exact absurd h2 (splitOn_ne_nil sep cs)
      | cons x rest =>
        rw [h2] at hs
        rcases List.mem_cons.mp hs with h1 | h1
        · subst h1
          intro hm
          rcases List.mem_cons.mp hm with h3 | h3
          · exact h h3.symm
          · exact ih x (h2 ▸ List.mem_cons_self x rest) h3
        · exact ih s (h2 ▸ List.mem_cons_of_mem x h1)

theorem splitOn_mem_chars (sep : Char) : ∀ (l s : List Char),
    s ∈ splitOn sep l → ∀ x ∈ s, x ∈ l := by
  intro l
  induction l with
  | nil =>
    intro s hs x hx
    simp [splitOn] at hs
    subst hs
    simp at hx
  | cons c cs ih =>
    intro s hs x hx
    simp only [splitOn] at hs
    by_cases h : c = sep
    · rw [if_pos h] at hs
      rcases List.mem_cons.mp hs with h1 | h1
      · subst h1; simp at hx
      · exact List.mem_cons_of_mem c (ih s h1 x hx)
    · rw [if_neg h] at hs
      cases h2 : splitOn sep cs with
      | nil => exact absurd h2 (splitOn_ne_nil sep cs)
      | cons y rest =>
        rw [h2] at hs
        rcases List.mem_cons.mp hs with h1 | h1
        · subst h1
          rcases List.mem_cons.mp hx with h3 | h3
          · exact h3 ▸ List.mem_cons_self c cs
          · exact List.mem_cons_of_mem c
              (ih y (h2 ▸ List.mem_cons_self y rest) x h3)
        · exact List.mem_cons_of_mem c (ih s (h2 ▸ List.mem_cons_of_mem y h1) x hx)

theorem splitOn_intercalate (sep : Char) :
    ∀ xs : List (List Char), xs ≠ [] → (∀ x ∈ xs, sep ∉ x) →
    splitOn sep (List.intercalate [sep] xs) = xs := by
  intro xs
  induction xs with
  | nil => intro h; exact absurd rfl h
  | cons a rest ih =>
    intro _ hx
    cases rest with
    | nil =>
      have e : List.intercalate [sep] [a] = a := by
        simp [List.intercalate, List.intersperse]
      rw [e]
      exact splitOn_no_sep sep a (hx a (List.mem_cons_self a []))
    | cons b bs =>
      have e1 : List.intercalate [sep] (a :: b :: bs) =
          a ++ sep :: List.intercalate [sep] (b :: bs) := by
        simp [List.intercalate, List.intersperse]
      rw [e1, splitOn_append_sep, splitOn_no_sep sep a (hx a (List.mem_cons_self a _)),
        ih (by simp) (fun x h => hx x (List.mem_cons_of_mem a h))]
      rfl

theorem dropWhile_all (p : Char → Bool) : ∀ l : List Char,
    (∀ x ∈ l, p x = true) → l.dropWhile p = [] := by
  intro l
  induction l with
  | nil => intro _; rfl
  | cons c cs ih =>
    intro h
    rw [List.dropWhile_cons_of_pos (h c (List.mem_cons_self c cs))]
    exact ih (fun x hx => h x (List.mem_cons_of_mem c hx))

theorem dropWhile_append_all (p : Char → Bool) : ∀ (w r : List Char),
    (∀ x ∈ w, p x = true) → (w ++ r).dropWhile p = r.dropWhile p := by
  intro w
  induction w with
  | nil => intro r _; rfl
  | cons c cs ih =>
    intro r h
    rw [List.cons_append, List.dropWhile_cons_of_pos (h c (List.mem_cons_self c cs))]
    exact ih r (fun x hx => h x (List.mem_cons_of_mem c hx))

theorem dropWhile_append_ne (p : Char → Bool) : ∀ (l r : List Char),
    l.dropWhile p ≠ [] → (l ++ r).dropWhile p = l.dropWhile p ++ r := by
  intro l
  induction l with
  | nil => intro r h; exact absurd rfl h
  | cons c cs ih =>
    intro r h
    by_cases hc : p c = true
    · rw [List.cons_append, List.dropWhile_cons_of_pos hc]
      rw [List.dropWhile_cons_of_pos hc] at h ⊢
      exact ih r h
    · rw [Bool.not_eq_true] at hc
      rw [List.cons_append,
        List.dropWhile_cons_of_neg (by simp [hc]),
        List.dropWhile_cons_of_neg (by simp [hc])]
      simp

theorem dropWhile_eq_nil_all (p : Char → Bool) : ∀ l : List Char,
    l.dropWhile p = [] → ∀ x ∈ l, p x = true := by
  intro l
  induction l with
  | nil => intro _ x hx; simp at hx
  | cons c cs ih =>
    intro h x hx
    by_cases hc : p c = true
    · rw [List.dropWhile_cons_of_pos hc] at h
      rcases List.mem_cons.mp hx with h1 | h1
      · exact h1 ▸ hc
      · exact ih h x h1
    · rw [Bool.not_eq_true] at hc
      rw [List.dropWhile_cons_of_neg (by simp [hc])] at h
      simp at h

theorem dropWhile_length_le (p : Char → Bool) : ∀ l : List Char,
    (l.dropWhile p).length ≤ l.length := by
  intro l
  induction l with
  | nil => simp
  | cons c cs ih =>
    by_cases hc : p c = true
    · rw [List.dropWhile_cons_of_pos hc]
      exact Nat.le_trans ih (by simp)
    · rw [Bool.not_eq_true] at hc
      rw [List.dropWhile_cons_of_neg (by simp [hc])]

theorem dropWhile_idem (p : Char → Bool) (l : List Char) :
    (l.dropWhile p).dropWhile p = l.dropWhile p := by
  induction l with
  | nil => rfl
  | cons c cs ih =>
    by_cases hc : p c = true
    · rw [List.dropWhile_cons_of_pos hc]
      exact ih
    · rw [Bool.not_eq_true] at hc
      rw [List.dropWhile_cons_of_neg (by simp [hc]),
        List.dropWhile_cons_of_neg (by simp [hc])]

theorem lstrip_ws_append (w r : List Char) (hw : ∀ x ∈ w, isWs x = true) :
    lstrip (w ++ r) = lstrip r :=
  dropWhile_append_all isWs w r hw

theorem lstrip_append_of_ne (a b : List Char) (h : lstrip a ≠ []) :
    lstrip (a ++ b) = lstrip a ++ b :=
  dropWhile_append_ne isWs a b h

theorem lstrip_eq_nil_all (l : List Char) (h : lstrip l = []) :
    ∀ x ∈ l, isWs x = true :=
  dropWhile_eq_nil_all isWs l h

theorem lstrip_idem (l : List Char) : lstrip (lstrip l) = lstrip l :=
  dropWhile_idem isWs l

theorem rstrip_nil : rstrip [] = [] := rfl

theorem rstrip_append_ws (a w : List Char) (hw : ∀ x ∈ w, isWs x = true) :
    rstrip (a ++ w) = rstrip a := by
  unfold rstrip
  rw [List.reverse_append,
    dropWhile_append_all isWs w.reverse a.reverse
      (fun x hx => hw x (List.mem_reverse.mp hx))]

theorem rstrip_append_of_ne (a r : List Char) (h : rstrip r ≠ []) :
    rstrip (a ++ r) = a ++ rstrip r := by
  have h2 : r.reverse.dropWhile isWs ≠ [] := by
    intro he
    apply h
    unfold rstrip
    rw [he]
    rfl
  unfold rstrip
  rw [List.reverse_append, dropWhile_append_ne isWs r.reverse a.reverse h2,
    List.reverse_append, List.reverse_reverse]

theorem rstrip_eq_nil_all (l : List Char) (h : rstrip l = []) :
    ∀ x ∈ l, isWs x = true := by
  intro x hx
  have h2 : l.reverse.dropWhile isWs = [] := by
    have := congrArg List.reverse h
    rwa [rstrip, List.reverse_reverse, List.reverse_nil] at this
  exact dropWhile_eq_nil_all isWs l.reverse h2 x (List.mem_reverse.mpr hx)

theorem rstrip_idem (l : List Char) : rstrip (rstrip l) = rstrip l := by
  unfold rstrip
  rw [List.reverse_reverse, dropWhile_idem]

theorem rstrip_decomp (l : List Char) :
    ∃ w, l = rstrip l ++ w ∧ ∀ x ∈ w, isWs x = true := by
  refine ⟨(l.reverse.takeWhile isWs).reverse, ?_, ?_⟩
  · conv_lhs => rw [← List.reverse_reverse l,
      ← List.takeWhile_append_dropWhile (p := isWs) (l := l.reverse)]
    rw [List.reverse_append]
    rfl
  · intro x hx
    exact List.mem_takeWhile_imp (List.mem_reverse.mp hx)

theorem lstrip_decomp (l : List Char) :
    ∃ w, l = w ++ lstrip l ∧ ∀ x ∈ w, isWs x = true := by
  refine ⟨l.takeWhile isWs, (List.takeWhile_append_dropWhile _ _).symm, ?_⟩
  intro x hx
  exact List.mem_takeWhile_imp hx

theorem strip_nil : strip [] = [] := rfl

theorem strip_ws_append (w a : List Char) (hw : ∀ x ∈ w, isWs x = true) :
    strip (w ++ a) = strip a := by
  unfold strip
  rw [lstrip_ws_append w a hw]

theorem strip_append_ws (a w : List Char) (hw : ∀ x ∈ w, isWs x = true) :
    strip (a ++ w) = strip a := by
  unfold strip
  by_cases h : lstrip a = []
  · have ha : ∀ x ∈ a, isWs x = true := lstrip_eq_nil_all a h
    have haw : lstrip (a ++ w) = [] := by
      rw [lstrip_ws_append a w ha]
      exact dropWhile_all isWs w hw
    rw [haw, h]
  · rw [lstrip_append_of_ne a w h, rstrip_append_ws _ w hw]

theorem lstrip_rstrip_fix (m : List Char) (h : lstrip m = m) :
    lstrip (rstrip m) = rstrip m := by
  cases hm : rstrip m with
  | nil => rfl
  | cons c t =>
    obtain ⟨w, hw1, hw2⟩ := rstrip_decomp m
    rw [hm] at hw1
    have hc : isWs c = false := by
      by_contra hcc
      rw [Bool.not_eq_false] at hcc
      have heq : lstrip m = lstrip (t ++ w) := by
        rw [hw1, List.cons_append]
        exact List.dropWhile_cons_of_pos hcc
      rw [h, hw1] at heq
      have h3 := congrArg List.length heq
      unfold lstrip at h3
      simp only [List.cons_append, List.length_cons, List.length_append] at h3
      have hlen := dropWhile_length_le isWs (t ++ w)
      simp only [List.length_append] at hlen
      omega
    exact List.dropWhile_cons_of_neg (by simp [hc])

theorem strip_idem (l : List Char) : strip (strip l) = strip l := by
  show strip (rstrip (lstrip l)) = rstrip (lstrip l)
  unfold strip
  rw [lstrip_rstrip_fix (lstrip l) (lstrip_idem l), rstrip_idem]

theorem strip_ne_nil_head (c : Char) (t : List Char) (h : isWs c = false) :
    strip (c :: t) ≠ [] := by
  unfold strip
  rw [show lstrip (c :: t) = c :: t from List.dropWhile_cons_of_neg (by simp [h])]
  intro he
  have := rstrip_eq_nil_all (c :: t) he c (List.mem_cons_self c t)
  rw [h] at this
  exact Bool.false_ne_true this

theorem strip_eq_rstrip_head (c : Char) (t : List Char) (h : isWs c = false) :
    strip (c :: t) = rstrip (c :: t) := by
  unfold strip
  rw [show lstrip (c :: t) = c :: t from List.dropWhile_cons_of_neg (by simp [h])]

theorem joinSegs_cover_left : ∀ (a b : List (List Char)), ∀ x ∈ a,
    x ∈ joinSegs a b ∨ ∃ y ∈ b, x ++ y ∈ joinSegs a b := by
  intro a
  induction a with
  | nil => intro b x hx; simp at hx
  | cons s rest ih =>
    intro b x hx
    cases rest with
    | nil =>
      rcases List.mem_cons.mp hx with h1 | h1
      · subst h1
        cases b with
        | nil => left; simp [joinSegs]
        | cons y ys =>
          right
          exact ⟨y, List.mem_cons_self y ys, by rw [joinSegs_single]; simp⟩
      · simp at h1
    | cons z zs =>
      rcases List.mem_cons.mp hx with h1 | h1
      · subst h1
        left
        rw [joinSegs_cons_cons]
        simp
      · rcases ih b x h1 with h2 | ⟨y, hy, h2⟩
        · left; rw [joinSegs_cons_cons]; exact List.mem_cons_of_mem s h2
        · right
          exact ⟨y, hy, by rw [joinSegs_cons_cons]; exact List.mem_cons_of_mem s h2⟩

theorem joinSegs_cover_right : ∀ (a b : List (List Char)), ∀ x ∈ b,
    x ∈ joinSegs a b ∨ ∃ y ∈ a, y ++ x ∈ joinSegs a b := by
  intro a
  induction a with
  | nil => intro b x hx; left; exact hx
  | cons s rest ih =>
    intro b x hx
    cases rest with
    | nil =>
      cases b with
      | nil => simp at hx
      | cons y ys =>
        rcases List.mem_cons.mp hx with h1 | h1
        · subst h1
          right
          exact ⟨s, List.mem_cons_self s [], by rw [joinSegs_single]; simp⟩
        · left
          rw [joinSegs_single]
          exact List.mem_cons_of_mem _ h1
    | cons z zs =>
      rcases ih b x hx with h2 | ⟨y, hy, h2⟩
      · left; rw [joinSegs_cons_cons]; exact List.mem_cons_of_mem s h2
      · right
        exact ⟨y, List.mem_cons_of_mem s hy,
          by rw [joinSegs_cons_cons]; exact List.mem_cons_of_mem s h2⟩

theorem joinSegs_init_last : ∀ (pre : List (List Char)) (last b : List Char)
    (bs : List (List Char)),
    joinSegs (pre ++ [last]) (b :: bs) = pre ++ (last ++ b) :: bs := by
  intro pre
  induction pre with
  | nil => intro last b bs; rw [List.nil_append, joinSegs_single]; rfl
  | cons p ps ih =>
    intro last b bs
    cases ps with
    | nil =>
      rw [List.cons_append, List.nil_append, joinSegs_cons_cons, joinSegs_single]
      rfl
    | cons q qs =>
      simp only [List.cons_append]
      rw [joinSegs_cons_cons, show q :: (qs ++ [last]) = (q :: qs) ++ [last] from rfl,
        ih]
      simp

theorem filter_subsumed (f g : List Char → Bool)
    (h : ∀ x, f x = true → g x = true) :
    ∀ l : List (List Char), (l.filter f).filter g = l.filter f := by
  intro l
  induction l with
  | nil => rfl
  | cons x xs ih =>
    by_cases hx : f x = true
    · rw [List.filter_cons_of_pos hx, List.filter_cons_of_pos (h x hx), ih]
    · rw [Bool.not_eq_true] at hx
      rw [List.filter_cons_of_neg (by simp [hx]), ih]

theorem startsWith_excl (x y : Char) (xs ys r : List Char) (hxy : x ≠ y)
    (h : listStartsWith (x :: xs) r = true) :
    listStartsWith (y :: ys) r = false := by
  cases r with
  | nil => simp [listStartsWith] at h
  | cons c cs =>
    simp only [listStartsWith, Bool.and_eq_true, decide_eq_true_eq] at h
    have : ¬(y = c) := fun he => hxy (h.1.trans he.symm)
    simp [listStartsWith, this]

theorem prompt_reverse_eq : ".prompt".toList.reverse = 't' :: "pmorp.".toList := by decide

theorem complete_reverse_eq :
    ".complete".toList.reverse = 'e' :: "telpmoc.".toList := by decide

theorem error_reverse_eq : ".error".toList.reverse = 'r' :: "orre.".toList := by decide

theorem prompt_complete_reverse_eq :
    ".prompt.complete".toList.reverse = 'e' :: "telpmoc.tpmorp.".toList := by decide

/-- C6: on any directory listing, `find_prompt_files` returns exactly the
names matching the watched `*.prompt` pattern (the `.prompt.complete`
filter can never remove a glob match), and no returned path ends in
`.complete` or `.error`. -/
theorem C6_job_discovery (listing : List (List Char)) :
    find_prompt_files listing =
      listing.filter (fun p => listEndsWith ".prompt".toList p)
    ∧ ∀ p ∈ find_prompt_files listing,
        listEndsWith ".complete".toList p = false ∧
        listEndsWith ".error".toList p = false := by
  have hmain : ∀ p : List Char, listEndsWith ".prompt".toList p = true →
      (!listEndsWith ".prompt.complete".toList p) = true := by
    intro p hp
    unfold listEndsWith at hp ⊢
    rw [prompt_reverse_eq] at hp
    rw [prompt_complete_reverse_eq, startsWith_excl 't' 'e' _ _ _ (by decide) hp]
    rfl
  have heq : find_prompt_files listing =
      listing.filter (fun p => listEndsWith ".prompt".toList p) := by
    show (listing.filter (fun p => listEndsWith ".prompt".toList p)).filter
      (fun p => !listEndsWith ".prompt.complete".toList p) =
      listing.filter (fun p => listEndsWith ".prompt".toList p)
    exact filter_subsumed _ _ hmain listing
  refine ⟨heq, ?_⟩
  intro p hp
  rw [heq] at hp
  have hends : listEndsWith ".prompt".toList p = true := by
    have := List.mem_filter.mp hp
    exact this.2
  unfold listEndsWith at hends ⊢
  rw [prompt_reverse_eq] at hends
  constructor
  · rw [complete_reverse_eq]
    exact startsWith_excl 't' 'e' _ _ _ (by decide) hends
  · rw [error_reverse_eq]
    exact startsWith_excl 't' 'r' _ _ _ (by decide) hends

theorem C6_witness :
    listEndsWith ".complete".toList "a.prompt".toList = false ∧
    listEndsWith ".error".toList "a.prompt".toList = false :=
  (C6_job_discovery ["a.prompt".toList, "b.prompt.complete".toList]).2
    "a.prompt".toList (by decide)

/-- C3: `parse_conversation_sections` fails with the mismatched-sections
error exactly when the number of markers found differs from the number of
non-empty stripped content segments produced by splitting on the markers;
equal counts always succeed, and the mismatch is the only error this
function produces. -/
theorem C3_mismatch_iff (t : List Char) :
    (parse_conversation_sections t = .error .mismatchedSections ↔
      (headersOf (tokenize t)).length ≠
        (((splitToks (tokenize t)).map strip).filter (fun s => !s.isEmpty)).length)
    ∧ ((headersOf (tokenize t)).length =
        (((splitToks (tokenize t)).map strip).filter (fun s => !s.isEmpty)).length →
      ∃ S, parse_conversation_sections t = .ok S)
    ∧ (∀ e, parse_conversation_sections t = .error e → e = .mismatchedSections) := by
  unfold parse_conversation_sections
  by_cases h : (headersOf (tokenize t)).length =
      (((splitToks (tokenize t)).map strip).filter (fun s => !s.isEmpty)).length
  · simp [h]
  · simp [h]

theorem C3_witness :
    parse_conversation_sections "junk---HUMAN---hi".toList =
      .error .mismatchedSections :=
  (C3_mismatch_iff "junk---HUMAN---hi".toList).1.mpr (by decide)

/-- C7 counterexample: with the busy signal true, continuous mode does not
wait and re-check on its next tick — the monitor's `main` hits
`sys.exit(2)` before the mode branch, terminating instead of looping. -/
theorem C7_counterexample :
    monitorMain true .continuous 0 = .busyAbort ∧
    MonitorOutcome.busyAbort ≠ .loopForever ∧
    monitorExitCode .busyAbort = some 2 := by decide

/-- C7 amended: when the busy signal is true the monitor aborts with exit
status 2 in BOTH modes (the signal is consulted once, before the mode
branch) without processing any job; exit 2 is distinct from success (0)
and from a loop entry, and the busy outcome differs from a completed sweep
that found zero candidates. -/
theorem C7_busy_gate (mode : RunMode) (count : Nat) :
    monitorMain true mode count = .busyAbort ∧
    monitorExitCode .busyAbort = some 2 ∧
    monitorExitCode (.singleDone count) = some 0 ∧
    (∀ n : Nat, MonitorOutcome.busyAbort ≠ .singleDone n) ∧
    monitorMain false .single 0 = .singleDone 0 ∧
    MonitorOutcome.singleDone 0 ≠ .busyAbort := by
  refine ⟨by cases mode <;> rfl, rfl, rfl, ?_, rfl, ?_⟩
  · intro n h
    exact MonitorOutcome.noConfusion h
  · intro h
    exact MonitorOutcome.noConfusion h

/-- C2: the generation stage of `main` is reached only when the parsed
section list is non-empty with a human tail; when the parse succeeds but
the tail invariant fails, `main` exits with the no-sections or
last-not-human error before any backend request or file append. -/
theorem C2_tail_invariant (content : List Char) :
    (∀ cfg S msgs, mainFlow content = .ok (cfg, S, msgs) →
      S.getLast?.map Sect.kind = some .human ∧ msgs = build_ollama_messages S)
    ∧ (∀ cfg conv S, parse_prompt_file content = .ok (cfg, conv) →
        parse_conversation_sections conv = .ok S →
        S.getLast?.map Sect.kind ≠ some .human →
        mainFlow content = .error .noSections ∨
        mainFlow content = .error .lastNotHuman) := by
  constructor
  · intro cfg S msgs h
    unfold mainFlow at h
    cases h1 : parse_prompt_file content with
    | error e => rw [h1] at h; exact absurd h (by simp)
    | ok p =>
      obtain ⟨cfgp, convp⟩ := p
      rw [h1] at h
      replace h : mainTail cfgp convp = .ok (cfg, S, msgs) := h
      unfold mainTail at h
      cases h2 : parse_conversation_sections convp with
      | error e => rw [h2] at h; exact absurd h (by simp)
      | ok sections =>
        rw [h2] at h
        replace h : (match sections.getLast? with
          | none => (Except.error PErr.noSections :
              Except PErr (ConfigMap × List Sect × List Msg))
          | some lastS =>
            if lastS.kind ≠ SKind.human then Except.error PErr.lastNotHuman
            else Except.ok (cfgp, sections, build_ollama_messages sections)) =
          .ok (cfg, S, msgs) := h
        cases h3 : sections.getLast? with
        | none => rw [h3] at h; exact absurd h (by simp)
        | some lastS =>
          rw [h3] at h
          replace h : (if lastS.kind ≠ SKind.human then Except.error PErr.lastNotHuman
            else Except.ok (cfgp, sections, build_ollama_messages sections)) =
            Except.ok (cfg, S, msgs) := h
          by_cases h4 : lastS.kind = .human
          · rw [if_neg (by simp [h4])] at h
            have h5 := Except.ok.inj h
            simp only [Prod.mk.injEq] at h5
            obtain ⟨he1, he2, he3⟩ := h5
            subst he2
            subst he3
            constructor
            · rw [h3]
              simp [h4]
            · rfl
          · rw [if_pos (by simpa using h4)] at h
            exact absurd h (by simp)
  · intro cfg conv S h1 h2 h3
    unfold mainFlow
    rw [h1]
    show mainTail cfg conv = .error .noSections ∨
      mainTail cfg conv = .error .lastNotHuman
    unfold mainTail
    rw [h2]
    show (match S.getLast? with
        | none => (Except.error PErr.noSections :
            Except PErr (ConfigMap × List Sect × List Msg))
        | some lastS =>
          if lastS.kind ≠ SKind.human then Except.error PErr.lastNotHuman
          else Except.ok (cfg, S, build_ollama_messages S)) =
          Except.error PErr.noSections ∨
      (match S.getLast? with
        | none => (Except.error PErr.noSections :
            Except PErr (ConfigMap × List Sect × List Msg))
        | some lastS =>
          if lastS.kind ≠ SKind.human then Except.error PErr.lastNotHuman
          else Except.ok (cfg, S, build_ollama_messages S)) =
          Except.error PErr.lastNotHuman
    cases h4 : S.getLast? with
    | none =>
      left
      rfl
    | some lastS =>
      right
      have h5 : lastS.kind ≠ .human := by
        intro he
        apply h3
        rw [h4]
        simp [he]
      show (if lastS.kind ≠ SKind.human then Except.error PErr.lastNotHuman
        else Except.ok (cfg, S, build_ollama_messages S)) =
        Except.error PErr.lastNotHuman
      rw [if_pos h5]

theorem C2_witness :
    (([⟨SKind.human, "hi".toList⟩] : List Sect).getLast?.map Sect.kind =
      some .human) :=
  ((C2_tail_invariant "---\n---HUMAN---\nhi".toList).1 defaultConfig
    [⟨SKind.human, "hi".toList⟩] [⟨"user".toList, "hi".toList⟩] (by decide)).1

/-- C8 counterexample: non-whitespace text before the first marker is NOT
discarded — it becomes an extra content segment and here turns a parseable
text into the mismatched-sections error, so its presence does cause a
parse failure. -/
theorem C8_counterexample :
    parse_conversation_sections "junk---HUMAN---\nhi".toList =
      .error .mismatchedSections ∧
    parse_conversation_sections "---HUMAN---\nhi".toList =
      .ok [⟨.human, "hi".toList⟩] := by decide

/-- C8 amended: only WHITESPACE text preceding the first marker is
discarded by the parser: prepending whitespace leaves the parse result of
any conversation text unchanged and never causes a failure by itself. -/
theorem C8_ws_prefix_discarded (w t : List Char)
    (hw : ∀ x ∈ w, isWs x = true) :
    parse_conversation_sections (w ++ t) = parse_conversation_sections t := by
  unfold parse_conversation_sections
  rw [tokenize_ws_run w t hw, headersOf_append, headersOf_map_chr,
    splitToks_append, splitToks_map_chr]
  cases h : splitToks (tokenize t) with
  | nil => exact absurd h (splitToks_ne_nil _)
  | cons s rest =>
    rw [joinSegs_single]
    have e : ((w ++ s) :: rest).map strip = (s :: rest).map strip := by
      simp only [List.map_cons]
      rw [strip_ws_append w s hw]
    rw [e, List.nil_append]

theorem C8_witness :
    parse_conversation_sections (" \n ".toList ++ "---HUMAN---\nhi".toList) =
      parse_conversation_sections "---HUMAN---\nhi".toList :=
  C8_ws_prefix_discarded " \n ".toList "---HUMAN---\nhi".toList (by decide)

theorem splitFirst3_eq : ∀ l p q : List Char, splitFirst3 l = some (p, q) →
    l = p ++ dash3 ++ q ∧ noTripleDash p = true := by
  intro l
  induction l with
  | nil => intro p q h; simp [splitFirst3] at h
  | cons c cs ih =>
    intro p q h
    simp only [splitFirst3] at h
    by_cases h1 : listStartsWith dash3 (c :: cs) = true
    · rw [if_pos h1] at h
      have h2 := Option.some.inj h
      obtain ⟨hp, hq⟩ := Prod.mk.injEq _ _ _ _ ▸ h2
      subst hp
      constructor
      · have h3 := listStartsWith_decomp dash3 (c :: cs) h1
        rw [← hq]
        simpa [dash3] using h3
      · rfl
    · rw [if_neg h1] at h
      cases h2 : splitFirst3 cs with
      | none => rw [h2] at h; simp at h
      | some pr =>
        rw [h2] at h
        obtain ⟨p', q'⟩ := pr
        simp only [Option.map_some', Option.some.injEq, Prod.mk.injEq] at h
        obtain ⟨hp, hq⟩ := h
        subst hq
        obtain ⟨he, hn⟩ := ih p' q' h2
        constructor
        · rw [← hp, he]
          rfl
        · rw [← hp]
          show (!listStartsWith dash3 (c :: p') && noTripleDash p') = true
          have h3 : listStartsWith dash3 (c :: p') = false := by
        -- a match at the head of c :: p' would extend to c :: cs
            by_contra hcc
            rw [Bool.not_eq_false] at hcc
            have h4 := listStartsWith_append_left dash3 (c :: p') hcc (dash3 ++ q')
            rw [show (c :: p') ++ (dash3 ++ q') = c :: (p' ++ dash3 ++ q') by simp] at h4
            rw [← he] at h4
            exact absurd h4 (by simpa using h1)
          simp [h3, hn]

theorem splitFirst3_isSome : ∀ x y : List Char,
    (splitFirst3 (x ++ dash3 ++ y)).isSome = true := by
  intro x
  induction x with
  | nil =>
    intro y
    rw [List.nil_append]
    have h1 : listStartsWith dash3 (dash3 ++ y) = true :=
      listStartsWith_self_append dash3 y
    cases hd : dash3 ++ y with
    | nil => simp [dash3] at hd
    | cons c cs =>
      simp only [splitFirst3]
      rw [← hd, if_pos h1]
      rfl
  | cons c cs ih =>
    intro y
    rw [show (c :: cs) ++ dash3 ++ y = c :: (cs ++ dash3 ++ y) by simp]
    simp only [splitFirst3]
    by_cases h1 : listStartsWith dash3 (c :: (cs ++ dash3 ++ y)) = true
    · rw [if_pos h1]
      rfl
    · rw [if_neg h1]
      have h2 := ih y
      cases h3 : splitFirst3 (cs ++ dash3 ++ y) with
      | none => rw [h3] at h2; simp at h2
      | some pr => rfl

theorem splitFirst3_append : ∀ (a : List Char) (p q b : List Char),
    splitFirst3 a = some (p, q) → splitFirst3 (a ++ b) = some (p, q ++ b) := by
  intro a
  induction a with
  | nil => intro p q b h; simp [splitFirst3] at h
  | cons c cs ih =>
    intro p q b h
    simp only [splitFirst3] at h
    rw [show (c :: cs) ++ b = c :: (cs ++ b) by simp]
    simp only [splitFirst3]
    by_cases h1 : listStartsWith dash3 (c :: cs) = true
    · rw [if_pos h1] at h
      have h2 : listStartsWith dash3 (c :: (cs ++ b)) = true := by
        have := listStartsWith_append_left dash3 (c :: cs) h1 b
        simpa using this
      rw [if_pos h2]
      have h3 := Option.some.inj h
      obtain ⟨hp, hq⟩ := Prod.mk.injEq _ _ _ _ ▸ h3
      subst hp
      have hlen : 3 ≤ (c :: cs).length := by
        have := listStartsWith_length _ _ h1
        simpa [dash3] using this
      rw [show c :: (cs ++ b) = (c :: cs) ++ b by simp]
      rw [drop_append_len 3 (c :: cs) b hlen, hq]
    · rw [if_neg h1] at h
      have h2 : listStartsWith dash3 (c :: (cs ++ b)) = false := by
        by_contra hcc
        rw [Bool.not_eq_false] at hcc
        -- the match must lie inside c :: cs, whose length is ≥ 3
        cases h3 : splitFirst3 cs with
        | none => rw [h3] at h; simp at h
        | some pr =>
          obtain ⟨p', q'⟩ := pr
          obtain ⟨he, _⟩ := splitFirst3_eq cs p' q' h3
          have e3 : dash3.length = 3 := by decide
          have hlen : 3 ≤ cs.length := by
            rw [he]
            simp only [List.length_append]
            omega
          have h4 : listStartsWith dash3 (c :: (cs ++ b)) =
              listStartsWith dash3 (c :: cs) := by
            rw [show c :: (cs ++ b) = (c :: cs) ++ b by simp]
            exact listStartsWith_append_of_le dash3 (c :: cs)
              (by simp only [List.length_cons]; omega) b
          rw [h4] at hcc
          exact absurd hcc (by simpa using h1)
      rw [if_neg (by simp [h2])]
      cases h3 : splitFirst3 cs with
      | none => rw [h3] at h; simp at h
      | some pr =>
        obtain ⟨p', q'⟩ := pr
        rw [h3] at h
        simp only [Option.map_some', Option.some.injEq, Prod.mk.injEq] at h
        obtain ⟨hp, hq⟩ := h
        rw [ih p' q' b h3]
        simp [← hp, ← hq]

theorem processLine_error : ∀ (cfg : ConfigMap) (line : List Char) (e : PErr),
    processLine cfg line = .error e → e = .uncaughtValueError := by
  intro cfg line e h
  unfold processLine at h
  split at h
  · exact absurd h (by simp)
  · split at h
    · exact absurd h (by simp)
    · split at h
      · split at h
        · exact absurd h (by simp)
        · split at h
          · exact absurd h (by simp)
          · exact (Except.error.inj h).symm
      · split at h
        · split at h
          · exact absurd h (by simp)
          · exact (Except.error.inj h).symm
        · exact absurd h (by simp)

theorem processLine_bad : ∀ (line : List Char), badNumericLine line = true →
    ∀ cfg : ConfigMap, processLine cfg line = .error .uncaughtValueError := by
  intro line hbad cfg
  unfold badNumericLine at hbad
  unfold processLine
  split at hbad
  · exact absurd hbad (by simp)
  · rename_i key0 value0 heq
    split at hbad
    · exact absurd hbad (by simp)
    · rename_i hnotc
      rw [if_neg hnotc]
      split at hbad
      · rename_i hkey
        rw [if_pos hkey]
        simp only [Bool.and_eq_true, Bool.not_eq_true', Option.isNone_iff_eq_none] at hbad
        rw [if_neg (of_decide_eq_false hbad.1), hbad.2]
      · rename_i hkey
        rw [if_neg hkey]
        split at hbad
        · rename_i hkey2
          rw [if_pos hkey2]
          simp only [Bool.not_eq_true'] at hbad
          rw [if_neg (by simp [hbad])]
        · exact absurd hbad (by simp)

theorem parseConfigLines_error : ∀ (lines : List (List Char)) (cfg : ConfigMap)
    (e : PErr), parseConfigLines cfg lines = .error e → e = .uncaughtValueError := by
  intro lines
  induction lines with
  | nil => intro cfg e h; exact absurd h (by simp [parseConfigLines])
  | cons l rest ih =>
    intro cfg e h
    unfold parseConfigLines at h
    cases h2 : processLine cfg l with
    | error e2 =>
      rw [h2] at h
      have := Except.error.inj h
      rw [← this]
      exact processLine_error cfg l e2 h2
    | ok cfg2 =>
      rw [h2] at h
      exact ih cfg2 e h

theorem parseConfigLines_bad : ∀ (pre : List (List Char)) (line : List Char)
    (post : List (List Char)) (cfg : ConfigMap), badNumericLine line = true →
    parseConfigLines cfg (pre ++ line :: post) = .error .uncaughtValueError := by
  intro pre
  induction pre with
  | nil =>
    intro line post cfg hbad
    rw [List.nil_append]
    unfold parseConfigLines
    rw [processLine_bad line hbad cfg]
  | cons p pre' ih =>
    intro line post cfg hbad
    rw [List.cons_append]
    unfold parseConfigLines
    cases h2 : processLine cfg p with
    | error e2 =>
      have he := processLine_error cfg p e2 h2
      subst he
      rfl
    | ok cfg2 =>
      exact ih line post cfg2 hbad

/-- C9 counterexample: a non-numeric value for a numeric key does not
produce a handled `ConfigError`-style exit — `int()` raises a `ValueError`
that nothing in the script catches (`uncaughtValueError` in this model),
so the run dies with an unclassified exception traceback. -/
theorem C9_counterexample :
    parse_prompt_file "max_tokens: abc\n---\n---HUMAN---\nhi".toList =
      .error .uncaughtValueError ∧
    pyInt? "abc".toList = none := by decide

/-- C9 amended: any config-line list containing a line whose key is a
numeric field and whose comment-stripped value is neither a valid number
nor (where accepted) the literal `none` makes the config parse — and the
whole `parse_prompt_file` — end in the uncaught `ValueError`, the only
error the config parser can produce. -/
theorem C9_bad_numeric_value :
    (∀ (cfg : ConfigMap) (pre post : List (List Char)) (line : List Char),
      badNumericLine line = true →
      parseConfigLines cfg (pre ++ line :: post) = .error .uncaughtValueError)
    ∧ (∀ (text cfgPart convPart : List Char),
        splitFirst3 text = some (cfgPart, convPart) →
        (∃ line ∈ splitOn '\n' (strip cfgPart), badNumericLine line = true) →
        parse_prompt_file text = .error .uncaughtValueError)
    ∧ (∀ (cfgPart : List Char) (e : PErr), parseConfig cfgPart = .error e →
        e = .uncaughtValueError) := by
  refine ⟨fun cfg pre post line h => parseConfigLines_bad pre line post cfg h,
    ?_, fun cfgPart e h => parseConfigLines_error _ _ _ h⟩
  intro text cfgPart convPart hsplit hbad
  obtain ⟨line, hmem, hb⟩ := hbad
  obtain ⟨pre, post, hdecomp⟩ := List.append_of_mem hmem
  unfold parse_prompt_file
  rw [hsplit]
  have hcfg : parseConfig cfgPart = .error .uncaughtValueError := by
    unfold parseConfig
    rw [hdecomp]
    exact parseConfigLines_bad pre line post defaultConfig hb
  show (match parseConfig cfgPart with
    | Except.error e => (Except.error e : Except PErr (ConfigMap × List Char))
    | Except.ok cfg => Except.ok (cfg, strip convPart)) =
    Except.error PErr.uncaughtValueError
  rw [hcfg]

theorem C9_witness :
    parseConfigLines defaultConfig ["max_tokens: 1O".toList] =
      .error .uncaughtValueError :=
  C9_bad_numeric_value.1 defaultConfig [] [] "max_tokens: 1O".toList (by decide)

/-- C10: the config/conversation boundary is the first `---` substring
occurrence anywhere in the text, so a text containing a section marker
never fails with the missing-separator error even without a standalone
`---` line; for a leading marker, its three dashes are consumed as the
boundary and the rest of the marker (`HUMAN---`) becomes conversation
text. -/
theorem C10_boundary_at_first_dashes :
    (∀ (x y m : List Char), m = hMark ∨ m = aMark →
      parse_prompt_file (x ++ m ++ y) ≠ .error .missingSeparator)
    ∧ (∀ (text p q : List Char), splitFirst3 text = some (p, q) →
        text = p ++ dash3 ++ q ∧ noTripleDash p = true)
    ∧ parse_prompt_file "x: 1\nno separator line\n---HUMAN---\nhello".toList =
        .ok (updateCfg defaultConfig "x".toList (.vstr "1".toList),
          "HUMAN---\nhello".toList) := by
  refine ⟨?_, splitFirst3_eq, by decide⟩
  intro x y m hm h
  have hm3 : ∃ rest, m = dash3 ++ rest := by
    rcases hm with h2 | h2
    · exact ⟨"HUMAN---".toList, by rw [h2]; decide⟩
    · exact ⟨"AI---".toList, by rw [h2]; decide⟩
  obtain ⟨rest, hrest⟩ := hm3
  have he : x ++ m ++ y = x ++ dash3 ++ (rest ++ y) := by rw [hrest]; simp
  rw [he] at h
  have h2 := splitFirst3_isSome x (rest ++ y)
  unfold parse_prompt_file at h
  cases h3 : splitFirst3 (x ++ dash3 ++ (rest ++ y)) with
  | none => rw [h3] at h2; simp at h2
  | some pr =>
    rw [h3] at h
    obtain ⟨cp, vp⟩ := pr
    replace h : (match parseConfig cp with
      | .error e => (Except.error e : Except PErr (ConfigMap × List Char))
      | .ok cfg => .ok (cfg, strip vp)) = .error .missingSeparator := h
    cases h4 : parseConfig cp with
    | error e =>
      rw [h4] at h
      have h5 := Except.error.inj h
      have h6 := parseConfigLines_error _ _ _ h4
      rw [h6] at h5
      exact PErr.noConfusion h5
    | ok cfg =>
      rw [h4] at h
      exact absurd h (by simp)

theorem C10_witness :
    parse_prompt_file ("config without separator\n".toList ++ hMark ++
      "\nhello".toList) ≠ .error .missingSeparator :=
  C10_boundary_at_first_dashes.1 "config without separator\n".toList
    "\nhello".toList hMark (Or.inl rfl)

theorem parse_sections_content (t : List Char) (S : List Sect)
    (h : parse_conversation_sections t = .ok S) :
    ∀ s ∈ S, s.content ≠ [] ∧ strip s.content = s.content := by
  unfold parse_conversation_sections at h
  split at h
  · exact absurd h (by simp)
  · have h2 := Except.ok.inj h
    intro s hs
    rw [← h2] at hs
    obtain ⟨⟨k, c⟩, hmem, hmk⟩ := List.mem_map.mp hs
    have hc := (List.of_mem_zip hmem).2
    have hfil := List.mem_filter.mp hc
    obtain ⟨c0, _, hc0⟩ := List.mem_map.mp hfil.1
    have hcontent : s.content = strip c := by rw [← hmk]
    have hcs : strip c = c := by
      rw [← hc0]
      exact strip_idem c0
    have hcne : c ≠ [] := by
      have h3 := hfil.2
      simp only [Bool.not_eq_true'] at h3
      intro he
      rw [he] at h3
      simp at h3
    constructor
    · rw [hcontent, hcs]; exact hcne
    · rw [hcontent, hcs, hcs]

/-- C1: `build_ollama_messages` is the order-preserving per-turn
projection `msgOf` — human turns become user messages with content passed
through unchanged (`#` characters included), ai turns are cleaned of
`# Generated:` lines and dropped when the cleaned content is empty; it
never emits an empty-content message on parser output (whose turn
contents are non-empty), and the spec's concrete example evaluates as
stated. -/
theorem C1_message_projection :
    (∀ sections : List Sect,
      build_ollama_messages sections = sections.filterMap msgOf)
    ∧ (∀ sections : List Sect, (∀ s ∈ sections, s.content ≠ []) →
        ∀ m ∈ build_ollama_messages sections, m.content ≠ [])
    ∧ (∀ (t : List Char) (S : List Sect),
        parse_conversation_sections t = .ok S → ∀ s ∈ S, s.content ≠ [])
    ∧ build_ollama_messages
        [⟨.human, "a".toList⟩, ⟨.ai, "# Generated: x\nb".toList⟩,
         ⟨.human, "c".toList⟩] =
        [⟨"user".toList, "a".toList⟩, ⟨"assistant".toList, "b".toList⟩,
         ⟨"user".toList, "c".toList⟩] := by
  refine ⟨?_, ?_, fun t S h s hs => (parse_sections_content t S h s hs).1, by decide⟩
  · intro sections
    induction sections with
    | nil => rfl
    | cons s rest ih =>
      cases hk : s.kind with
      | human =>
        simp only [build_ollama_messages, hk, List.filterMap_cons, msgOf, ih]
      | ai =>
        by_cases hempty : (cleanAiContent s.content).isEmpty = true
        · simp only [build_ollama_messages, hk, List.filterMap_cons, msgOf,
            hempty, if_pos, ih]
        · simp only [build_ollama_messages, hk, List.filterMap_cons, msgOf, ih]
          rw [Bool.not_eq_true] at hempty
          simp [hempty]
  · intro sections
    induction sections with
    | nil => intro _ m hm; simp [build_ollama_messages] at hm
    | cons s rest ih =>
      intro hne m hm
      have hrest : ∀ x ∈ rest, x.content ≠ [] :=
        fun x hx => hne x (List.mem_cons_of_mem s hx)
      cases hk : s.kind with
      | human =>
        simp only [build_ollama_messages, hk] at hm
        rcases List.mem_cons.mp hm with h1 | h1
        · rw [h1]
          exact hne s (List.mem_cons_self s rest)
        · exact ih hrest m h1
      | ai =>
        simp only [build_ollama_messages, hk] at hm
        by_cases hempty : (cleanAiContent s.content).isEmpty = true
        · rw [if_pos hempty] at hm
          exact ih hrest m hm
        · rw [if_neg hempty] at hm
          rcases List.mem_cons.mp hm with h1 | h1
          · rw [h1]
            show cleanAiContent s.content ≠ []
            intro he
            rw [he] at hempty
            exact hempty rfl
          · exact ih hrest m h1

theorem C1_witness :
    (⟨"user".toList, "a".toList⟩ : Msg).content ≠ [] :=
  C1_message_projection.2.1
    [⟨.human, "a".toList⟩, ⟨.ai, "# Generated: x\nb".toList⟩,
     ⟨.human, "c".toList⟩] (by decide)
    ⟨"user".toList, "a".toList⟩ (by decide)

theorem noGenLines_lstrip (s : List Char) (h : noGenLines s) :
    noGenLines (lstrip s) := by
  obtain ⟨w, hw1, hw2⟩ := lstrip_decomp s
  intro l hl
  have hsplit : splitOn '\n' s =
      joinSegs (splitOn '\n' w) (splitOn '\n' (lstrip s)) := by
    conv_lhs => rw [hw1]
    exact splitOn_append '\n' w (lstrip s)
  rcases joinSegs_cover_right (splitOn '\n' w) (splitOn '\n' (lstrip s)) l hl with
    h2 | ⟨a, ha, h2⟩
  · exact h l (by rw [hsplit]; exact h2)
  · have hP := h (a ++ l) (by rw [hsplit]; exact h2)
    have haw : ∀ x ∈ a, isWs x = true := fun x hx =>
      hw2 x (splitOn_mem_chars '\n' w a ha x hx)
    rwa [strip_ws_append a l haw] at hP

theorem noGenLines_rstrip (s : List Char) (h : noGenLines s) :
    noGenLines (rstrip s) := by
  obtain ⟨w, hw1, hw2⟩ := rstrip_decomp s
  intro l hl
  have hsplit : splitOn '\n' s =
      joinSegs (splitOn '\n' (rstrip s)) (splitOn '\n' w) := by
    conv_lhs => rw [hw1]
    exact splitOn_append '\n' (rstrip s) w
  rcases joinSegs_cover_left (splitOn '\n' (rstrip s)) (splitOn '\n' w) l hl with
    h2 | ⟨b, hb, h2⟩
  · exact h l (by rw [hsplit]; exact h2)
  · have hP := h (l ++ b) (by rw [hsplit]; exact h2)
    have hbw : ∀ x ∈ b, isWs x = true := fun x hx =>
      hw2 x (splitOn_mem_chars '\n' w b hb x hx)
    rwa [strip_append_ws l b hbw] at hP

theorem noGenLines_strip (s : List Char) (h : noGenLines s) :
    noGenLines (strip s) :=
  noGenLines_rstrip (lstrip s) (noGenLines_lstrip s h)

theorem cleanGenerated_no_gen (raw : List Char) :
    noGenLines (cleanGenerated raw) := by
  unfold cleanGenerated
  apply noGenLines_strip
  cases hL : (splitOn '\n' (strip raw)).filter
      (fun line => !listStartsWith genMarker (strip line)) with
  | nil =>
    intro l hl
    have : joinNL ([] : List (List Char)) = [] := rfl
    rw [this] at hl
    simp only [splitOn] at hl
    rcases List.mem_singleton.mp hl with h1
    rw [h1]
    decide
  | cons x rest =>
    intro l hl
    have hnl : ∀ y ∈ x :: rest, '\n' ∉ y := by
      intro y hy
      have hy2 : y ∈ (splitOn '\n' (strip raw)).filter
          (fun line => !listStartsWith genMarker (strip line)) := by
        rw [hL]; exact hy
      exact splitOn_mem_not_sep '\n' (strip raw) y (List.mem_of_mem_filter hy2)
    have heq : splitOn '\n' (joinNL (x :: rest)) = x :: rest :=
      splitOn_intercalate '\n' (x :: rest) (by simp) hnl
    rw [heq] at hl
    have hl2 : l ∈ (splitOn '\n' (strip raw)).filter
        (fun line => !listStartsWith genMarker (strip line)) := by
      rw [hL]; exact hl
    have h3 := (List.mem_filter.mp hl2).2
    simpa using h3

theorem cleanGenerated_stripped (raw : List Char) :
    strip (cleanGenerated raw) = cleanGenerated raw := strip_idem _

theorem natDigitsF_digits : ∀ f n : Nat, n < f →
    ∀ c ∈ natDigitsF f n, isDigit c = true := by
  intro f
  induction f with
  | zero => intro n h; exact absurd h (Nat.not_lt_zero n)
  | succ m ih =>
    intro n h c hc
    unfold natDigitsF at hc
    by_cases h10 : n < 10
    · rw [if_pos h10] at hc
      rcases List.mem_singleton.mp hc with h1
      subst h1
      interval_cases n <;> decide
    · rw [if_neg h10] at hc
      rcases List.mem_append.mp hc with h2 | h2
      · have hdiv : n / 10 < m := by
          have h3 : n / 10 < n := Nat.div_lt_self (by omega) (by omega)
          omega
        exact ih (n / 10) hdiv c h2
      · rcases List.mem_singleton.mp h2 with h1
        subst h1
        have hmod : n % 10 < 10 := Nat.mod_lt _ (by omega)
        set k := n % 10 with hk
        interval_cases k <;> decide

theorem nl_not_in_natDigits (n : Nat) : '\n' ∉ natDigits n := by
  intro h
  have h2 := natDigitsF_digits (n + 1) n (by omega) '\n' h
  exact absurd h2 (by decide)

theorem nl_not_in_statsBody (ts el : List Char) (tok : Option TokenInfo)
    (hts : '\n' ∉ ts) (hel : '\n' ∉ el) : '\n' ∉ statsBody ts el tok := by
  intro h
  unfold statsBody at h
  cases tok with
  | none =>
    simp only [List.mem_append] at h
    rcases h with ((((((h | h) | h) | h) | h) | h) | h) | h
    · exact absurd h (by decide)
    · exact absurd h (by decide)
    · exact hts h
    · exact absurd h (by decide)
    · exact hel h
    · exact absurd h (by decide)
    · simp at h
    · exact absurd h (by decide)
  | some ti =>
    simp only [List.mem_append] at h
    rcases h with ((((((h | h) | h) | h) | h) | h) |
      ((((((h | h) | h) | h) | h) | h) | h)) | h
    · exact absurd h (by decide)
    · exact absurd h (by decide)
    · exact hts h
    · exact absurd h (by decide)
    · exact hel h
    · exact absurd h (by decide)
    · exact absurd h (by decide)
    · exact nl_not_in_natDigits _ h
    · exact absurd h (by decide)
    · exact nl_not_in_natDigits _ h
    · exact absurd h (by decide)
    · exact nl_not_in_natDigits _ h
    · exact absurd h (by decide)
    · exact absurd h (by decide)

theorem statsBody_starts_gen (ts el : List Char) (tok : Option TokenInfo) :
    listStartsWith genMarker (statsBody ts el tok) = true := by
  unfold statsBody
  rw [show genMarker ++ [' '] ++ ts ++ " (".toList ++ el ++ ['s'] ++
    (match tok with
     | none => []
     | some t =>
       ", ".toList ++ natDigits t.prompt_tokens ++ " prompt + ".toList ++
         natDigits t.completion_tokens ++ " completion = ".toList ++
         natDigits t.total_tokens ++ " tokens".toList) ++ [')'] =
    genMarker ++ ([' '] ++ ts ++ " (".toList ++ el ++ ['s'] ++
    (match tok with
     | none => []
     | some t =>
       ", ".toList ++ natDigits t.prompt_tokens ++ " prompt + ".toList ++
         natDigits t.completion_tokens ++ " completion = ".toList ++
         natDigits t.total_tokens ++ " tokens".toList) ++ [')']) by
    simp [List.append_assoc]]
  exact listStartsWith_self_append genMarker _

theorem appendBlock_cons_form (ts el : List Char) (tok : Option TokenInfo)
    (resp : List Char) :
    appendBlock ts el tok resp =
    '\n' :: '\n' :: (aMark ++ '\n' :: (statsBody ts el tok ++ '\n' ::
      (strip resp ++ '\n' :: '\n' :: (hMark ++ ['\n'])))) := by
  unfold appendBlock
  rw [show "\n\n---AI---\n".toList = '\n' :: '\n' :: (aMark ++ ['\n']) by decide,
    show "\n\n---HUMAN---\n".toList = '\n' :: '\n' :: (hMark ++ ['\n']) by decide]
  simp [List.append_assoc]

/-- C5: the text appended by `main` for a raw backend response consists,
line by line, of: a blank separator (two empty lines), the `---AI---`
marker on its own line, a single `# Generated:` stats line (with the
timestamp, elapsed time, and — when token statistics are present — the
prompt/completion/total counts), then the cleaned generated text (no line
of which starts with `# Generated:` once stripped), then a blank line, a
trailing `---HUMAN---` marker line, and a final newline. -/
theorem C5_appended_block (ts el : List Char) (tok : Option TokenInfo)
    (raw : List Char) (hts : '\n' ∉ ts) (hel : '\n' ∉ el) :
    splitOn '\n' (mainAppendText ts el tok raw) =
      [[], [], aMark, statsBody ts el tok] ++
        splitOn '\n' (cleanGenerated raw) ++ [[], hMark, []]
    ∧ listStartsWith genMarker (statsBody ts el tok) = true
    ∧ noGenLines (cleanGenerated raw)
    ∧ (∀ ti : TokenInfo, tok = some ti → statsBody ts el tok =
        genMarker ++ [' '] ++ ts ++ " (".toList ++ el ++ ['s'] ++
          (", ".toList ++ natDigits ti.prompt_tokens ++ " prompt + ".toList ++
            natDigits ti.completion_tokens ++ " completion = ".toList ++
            natDigits ti.total_tokens ++ " tokens".toList) ++ [')'])
    ∧ (tok = none → statsBody ts el tok =
        genMarker ++ [' '] ++ ts ++ " (".toList ++ el ++ ['s'] ++ [')']) := by
  refine ⟨?_, statsBody_starts_gen ts el tok, cleanGenerated_no_gen raw,
    ?_, ?_⟩
  · have hsb := nl_not_in_statsBody ts el tok hts hel
    show splitOn '\n' (appendBlock ts el tok (cleanGenerated raw)) = _
    rw [appendBlock_cons_form, cleanGenerated_stripped]
    rw [splitOn_cons_sep, splitOn_cons_sep, splitOn_append_sep,
      splitOn_no_sep '\n' aMark (by decide), splitOn_append_sep,
      splitOn_no_sep '\n' (statsBody ts el tok) hsb, splitOn_append_sep,
      splitOn_cons_sep, splitOn_append_sep,
      splitOn_no_sep '\n' hMark (by decide)]
    simp [splitOn]
  · intro ti hti
    subst hti
    rfl
  · intro hn
    subst hn
    show genMarker ++ [' '] ++ ts ++ " (".toList ++ el ++ ['s'] ++ [] ++ [')'] = _
    simp

theorem C5_witness :
    splitOn '\n' (mainAppendText "2025-01-02 03:04:05".toList "1.2".toList
      (some ⟨3, 4, 7⟩) "# Generated: echo\nhello".toList) =
      [[], [], aMark,
        statsBody "2025-01-02 03:04:05".toList "1.2".toList (some ⟨3, 4, 7⟩)] ++
        splitOn '\n' (cleanGenerated "# Generated: echo\nhello".toList) ++
        [[], hMark, []] :=
  (C5_appended_block "2025-01-02 03:04:05".toList "1.2".toList
    (some ⟨3, 4, 7⟩) "# Generated: echo\nhello".toList
    (by decide) (by decide)).1

theorem parse_prompt_file_inv (content : List Char) (cfg : ConfigMap)
    (conv : List Char) (h : parse_prompt_file content = .ok (cfg, conv)) :
    ∃ cfgPart convRaw, splitFirst3 content = some (cfgPart, convRaw) ∧
      parseConfig cfgPart = .ok cfg ∧ conv = strip convRaw := by
  unfold parse_prompt_file at h
  cases h1 : splitFirst3 content with
  | none => rw [h1] at h; exact absurd h (by simp)
  | some pr =>
    obtain ⟨cfgPart, convRaw⟩ := pr
    rw [h1] at h
    replace h : (match parseConfig cfgPart with
      | .error e => (Except.error e : Except PErr (ConfigMap × List Char))
      | .ok cfg => .ok (cfg, strip convRaw)) = .ok (cfg, conv) := h
    cases h2 : parseConfig cfgPart with
    | error e => rw [h2] at h; exact absurd h (by simp)
    | ok cfg2 =>
      rw [h2] at h
      have h3 := Except.ok.inj h
      simp only [Prod.mk.injEq] at h3
      exact ⟨cfgPart, convRaw, rfl, by rw [h3.1] at h2; exact h2, h3.2.symm⟩

theorem parse_sections_inv (t : List Char) (S : List Sect)
    (h : parse_conversation_sections t = .ok S) :
    (headersOf (tokenize t)).length =
      (((splitToks (tokenize t)).map strip).filter (fun s => !s.isEmpty)).length ∧
    S = ((headersOf (tokenize t)).zip
      (((splitToks (tokenize t)).map strip).filter (fun s => !s.isEmpty))).map
        (fun p => ⟨p.1, strip p.2⟩) := by
  unfold parse_conversation_sections at h
  split at h
  · exact absurd h (by simp)
  · rename_i hguard
    exact ⟨not_ne_iff.mp hguard, (Except.ok.inj h).symm⟩

theorem parse_sections_intro (t : List Char)
    (h : (headersOf (tokenize t)).length =
      (((splitToks (tokenize t)).map strip).filter (fun s => !s.isEmpty)).length) :
    parse_conversation_sections t =
      .ok (((headersOf (tokenize t)).zip
        (((splitToks (tokenize t)).map strip).filter (fun s => !s.isEmpty))).map
          (fun p => ⟨p.1, strip p.2⟩)) := by
  unfold parse_conversation_sections
  rw [if_neg (by omega)]

theorem tokenize_append_ws_mid (a w rest : List Char)
    (hw : ∀ x ∈ w, isWs x = true) (hne : w ≠ []) :
    tokenize (a ++ (w ++ rest)) = tokenize a ++ w.map .chr ++ tokenize rest := by
  cases w with
  | nil => exact absurd rfl hne
  | cons c w' =>
    have hc := hw c (List.mem_cons_self c w')
    have h1 : tokenize (a ++ (c :: (w' ++ rest))) =
        tokenize a ++ tokenize (c :: (w' ++ rest)) :=
      tokenize_append c (ws_not_in_hMark c hc) (ws_not_in_aMark c hc) a (w' ++ rest)
    have h2 : tokenize ((c :: w') ++ rest) = (c :: w').map .chr ++ tokenize rest :=
      tokenize_ws_run (c :: w') rest hw
    rw [show (c :: w') ++ rest = c :: (w' ++ rest) from rfl] at h2
    rw [show (c :: w') ++ rest = c :: (w' ++ rest) from rfl, h1, h2]
    simp [List.append_assoc]

theorem genMarker_cons : genMarker = '#' :: " Generated:".toList := by decide

theorem statsBody_head (ts el : List Char) (tok : Option TokenInfo) :
    ∃ tail, statsBody ts el tok = '#' :: tail := by
  refine ⟨" Generated:".toList ++ [' '] ++ ts ++ " (".toList ++ el ++ ['s'] ++
    (match tok with
     | none => []
     | some t =>
       ", ".toList ++ natDigits t.prompt_tokens ++ " prompt + ".toList ++
         natDigits t.completion_tokens ++ " completion = ".toList ++
         natDigits t.total_tokens ++ " tokens".toList) ++ [')'], ?_⟩
  unfold statsBody
  rw [genMarker_cons]
  simp only [List.cons_append, List.append_assoc]

theorem parse_sections_nil : parse_conversation_sections [] = .ok [] := by decide

theorem tokenize_chr_of_append : ∀ (a b : List Char),
    tokenize (a ++ b) = (a ++ b).map .chr → tokenize a = a.map .chr := by
  intro a
  induction a with
  | nil => intro b _; rfl
  | cons c a' ih =>
    intro b h
    rw [List.cons_append, tokenize_cons, List.map_cons] at h
    by_cases h1 : listStartsWith hMark (c :: (a' ++ b)) = true
    · rw [if_pos h1] at h
      simp at h
    · rw [if_neg h1] at h
      by_cases h2 : listStartsWith aMark (c :: (a' ++ b)) = true
      · rw [if_pos h2] at h
        simp at h
      · rw [if_neg h2] at h
        simp only [List.cons.injEq] at h
        have htail := ih b h.2
        rw [tokenize_cons]
        have h1' : listStartsWith hMark (c :: a') = false := by
          by_contra hcc
          rw [Bool.not_eq_false] at hcc
          have := listStartsWith_append_left hMark (c :: a') hcc b
          rw [show (c :: a') ++ b = c :: (a' ++ b) from rfl] at this
          exact h1 this
        have h2' : listStartsWith aMark (c :: a') = false := by
          by_contra hcc
          rw [Bool.not_eq_false] at hcc
          have := listStartsWith_append_left aMark (c :: a') hcc b
          rw [show (c :: a') ++ b = c :: (a' ++ b) from rfl] at this
          exact h2 this
        rw [h1', h2']
        simp only [Bool.false_eq_true, if_false, List.map_cons]
        rw [htail]

theorem headersOf_marker_cons (k : SKind) (ts : List Tok) :
    headersOf (.marker k :: ts) = k :: headersOf ts := rfl

theorem ne_nil_not_isEmpty (l : List Char) (h : l ≠ []) : (!l.isEmpty) = true := by
  cases l with
  | nil => exact absurd rfl h
  | cons c cs => rfl

theorem zip_append_len {α β : Type} : ∀ (l₁ : List α) (l₂ : List β)
    (r₁ : List α) (r₂ : List β), l₁.length = l₂.length →
    (l₁ ++ r₁).zip (l₂ ++ r₂) = l₁.zip l₂ ++ r₁.zip r₂ := by
  intro l₁
  induction l₁ with
  | nil =>
    intro l₂ r₁ r₂ h
    have : l₂ = [] := List.length_eq_zero.mp h.symm
    subst this
    rfl
  | cons a as ih =>
    intro l₂ r₁ r₂ h
    cases l₂ with
    | nil => simp at h
    | cons b bs =>
      simp only [List.cons_append, List.zip_cons_cons]
      rw [ih bs r₁ r₂ (by simpa using h)]

theorem take_append_left {α : Type} : ∀ (l t : List α), (l ++ t).take l.length = l := by
  intro l
  induction l with
  | nil => intro t; rfl
  | cons a as ih =>
    intro t
    simp only [List.cons_append, List.length_cons, List.take_succ_cons]
    rw [ih t]

/-- Appending a whitespace run, an `---AI---` section body and a
`---HUMAN---` section body to a parseable conversation text extends the
parsed sections by exactly the two new turns, leaving the original
sections untouched. -/
theorem sections_append_general (t t1 : List Char) (S : List Sect)
    (hsec : parse_conversation_sections t = .ok S)
    (W A2 A3 : List Char)
    (hWws : ∀ x ∈ W, isWs x = true)
    (hA2ne : strip A2 ≠ []) (hA3ne : strip A3 ≠ [])
    (htokens : tokenize t1 = tokenize t ++
      (W.map .chr ++ (.marker .ai :: (A2.map .chr ++ .marker .human :: A3.map .chr)))) :
    parse_conversation_sections t1 =
      .ok (S ++ [⟨.ai, strip A2⟩, ⟨.human, strip A3⟩]) := by
  obtain ⟨hg0, hS⟩ := parse_sections_inv t S hsec
  have hsegBne := splitToks_ne_nil (tokenize t)
  have hsegs1 : splitToks (tokenize t1) = (splitToks (tokenize t)).dropLast ++
      ((splitToks (tokenize t)).getLast hsegBne ++ W) :: A2 :: [A3] := by
    rw [htokens, splitToks_append, splitToks_map_chr_marker,
      splitToks_map_chr_marker, splitToks_map_chr]
    conv_lhs => rw [← List.dropLast_append_getLast hsegBne]
    rw [joinSegs_init_last]
  have hheads1 : headersOf (tokenize t1) =
      headersOf (tokenize t) ++ [SKind.ai, SKind.human] := by
    rw [htokens, headersOf_append, headersOf_append, headersOf_map_chr,
      headersOf_marker_cons, headersOf_append, headersOf_map_chr,
      headersOf_marker_cons, headersOf_map_chr]
    simp
  have hmap1 : (splitToks (tokenize t1)).map strip =
      ((splitToks (tokenize t)).dropLast).map strip ++
        [strip ((splitToks (tokenize t)).getLast hsegBne), strip A2, strip A3] := by
    rw [hsegs1]
    simp only [List.map_append, List.map_cons, List.map_nil]
    rw [strip_append_ws _ W hWws]
  have hmap0 : (splitToks (tokenize t)).map strip =
      ((splitToks (tokenize t)).dropLast).map strip ++
        [strip ((splitToks (tokenize t)).getLast hsegBne)] := by
    conv_lhs => rw [← List.dropLast_append_getLast hsegBne]
    simp
  have hfil1 : ((splitToks (tokenize t1)).map strip).filter (fun s => !s.isEmpty) =
      ((splitToks (tokenize t)).map strip).filter (fun s => !s.isEmpty) ++
        [strip A2, strip A3] := by
    have hff : List.filter (fun s => !s.isEmpty) [strip A2, strip A3] =
        [strip A2, strip A3] := by
      simp only [List.filter_cons, ne_nil_not_isEmpty _ hA2ne,
        ne_nil_not_isEmpty _ hA3ne, if_true, List.filter_nil]
    rw [hmap1, hmap0]
    rw [show [strip ((splitToks (tokenize t)).getLast hsegBne), strip A2, strip A3] =
      [strip ((splitToks (tokenize t)).getLast hsegBne)] ++ [strip A2, strip A3]
      from rfl]
    rw [← List.append_assoc, List.filter_append, hff]
  have hguard : (headersOf (tokenize t1)).length =
      (((splitToks (tokenize t1)).map strip).filter (fun s => !s.isEmpty)).length := by
    rw [hheads1, hfil1]
    simp only [List.length_append, List.length_cons, List.length_nil]
    omega
  rw [parse_sections_intro t1 hguard]
  congr 1
  rw [hheads1, hfil1, zip_append_len _ _ _ _ hg0, List.map_append, ← hS]
  congr 1
  show [(⟨SKind.ai, strip (strip A2)⟩ : Sect), ⟨SKind.human, strip (strip A3)⟩] = _
  rw [strip_idem, strip_idem]

/-- C4 counterexample, two failure modes of the claim as stated.  First:
appending a response and re-parsing IMMEDIATELY (before the next human
turn is typed) does not yield the original turns as a prefix — the primed
trailing `---HUMAN---` marker has empty content, so the re-parse fails
with the mismatched-sections error and produces no turn sequence at all.
Second: even with a human reply added, a response that echoes a section
marker (here `---AI---`) creates an extra marker with an empty segment
and the re-parse fails the same way.  The original document parses fine. -/
theorem C4_counterexample :
    mainFlow ("a: b\n---\n---HUMAN---\nhi".toList ++
      appendBlock "T".toList "1.0".toList none "ok".toList) =
      .error .mismatchedSections ∧
    mainFlow ("a: b\n---\n---HUMAN---\nhi".toList ++
      appendBlock "T".toList "1.0".toList none "---AI---".toList ++
      "next".toList) = .error .mismatchedSections ∧
    mainFlow "a: b\n---\n---HUMAN---\nhi".toList =
      .ok (updateCfg defaultConfig "a".toList (.vstr "b".toList),
        [⟨.human, "hi".toList⟩], [⟨"user".toList, "hi".toList⟩]) :=
  ⟨by decide, by decide, by decide⟩

/-- C4 amended: for every well-formed document, appending a synthetic
response whose text contains no `---HUMAN---`/`---AI---` marker, and then
any human reply that also contains no marker and whose stripped content is
non-empty, after the primed trailing `---HUMAN---`, re-parsing yields
exactly the original turns followed by the new ai turn (stats line plus
stripped response) and the new human turn (stripped reply): no prior turn
is rewritten, reordered or modified, and the original turn list is
literally a prefix of the new one.  Without the reply, or with a response
that echoes a marker, the re-parse fails instead: see the counterexample.
The marker-freedom of the stats line is code-guaranteed (its timestamp and
elapsed strings come from `strftime` and `:.1f`) and taken as a
hypothesis, like the newline-freedom in the C5 theorem. -/
theorem C4_append_preserves_turns (orig cfgPart convRaw : List Char)
    (cfg : ConfigMap) (S : List Sect) (ts el resp reply : List Char)
    (tok : Option TokenInfo)
    (hsp : splitFirst3 orig = some (cfgPart, convRaw))
    (hpc : parseConfig cfgPart = .ok cfg)
    (hsec : parse_conversation_sections (strip convRaw) = .ok S)
    (hlast : S.getLast?.map Sect.kind = some .human)
    (hsb : tokenize (statsBody ts el tok) = (statsBody ts el tok).map .chr)
    (hresp : tokenize (strip resp) = (strip resp).map .chr)
    (hr1 : tokenize reply = reply.map .chr)
    (hstrip : strip reply ≠ []) :
    parse_prompt_file (orig ++ appendBlock ts el tok resp ++ reply) =
      .ok (cfg, strip (convRaw ++ (appendBlock ts el tok resp ++ reply))) ∧
    parse_conversation_sections
        (strip (convRaw ++ (appendBlock ts el tok resp ++ reply))) =
      .ok (S ++ [⟨.ai, strip (statsBody ts el tok ++ '\n' :: strip resp)⟩,
        ⟨.human, strip reply⟩]) ∧
    (S ++ [(⟨.ai, strip (statsBody ts el tok ++ '\n' :: strip resp)⟩ : Sect),
      ⟨.human, strip reply⟩]).take S.length = S := by
  have hpart1 : parse_prompt_file (orig ++ appendBlock ts el tok resp ++ reply) =
      .ok (cfg, strip (convRaw ++ (appendBlock ts el tok resp ++ reply))) := by
    have hsp2 := splitFirst3_append orig cfgPart convRaw
      (appendBlock ts el tok resp ++ reply) hsp
    rw [show orig ++ appendBlock ts el tok resp ++ reply =
      orig ++ (appendBlock ts el tok resp ++ reply) by simp [List.append_assoc]]
    unfold parse_prompt_file
    rw [hsp2]
    show (match parseConfig cfgPart with
      | .error e => (Except.error e : Except PErr (ConfigMap × List Char))
      | .ok c => .ok (c, strip (convRaw ++ (appendBlock ts el tok resp ++ reply)))) = _
    rw [hpc]
  refine ⟨hpart1, ?_, take_append_left S _⟩
  -- the conversation part of the extended document
  have hSne : S ≠ [] := by
    intro he; rw [he] at hlast; simp at hlast
  have hconv0ne : strip convRaw ≠ [] := by
    intro he
    rw [he, parse_sections_nil] at hsec
    exact hSne (Except.ok.inj hsec).symm
  have hlcne : lstrip convRaw ≠ [] := by
    intro he
    apply hconv0ne
    show rstrip (lstrip convRaw) = []
    rw [he]
    rfl
  have hrstrip_ne : rstrip reply ≠ [] := by
    intro he
    apply hstrip
    have hall : ∀ x ∈ reply, isWs x = true := rstrip_eq_nil_all reply he
    show rstrip (lstrip reply) = []
    rw [show lstrip reply = [] from dropWhile_all isWs reply hall]
    rfl
  obtain ⟨wr, hwr1, hwr2⟩ := rstrip_decomp reply
  have hstrip_r : strip (rstrip reply) = strip reply := by
    conv_rhs => rw [hwr1]
    rw [strip_append_ws _ wr hwr2]
  have hr1' : tokenize (rstrip reply) = (rstrip reply).map .chr := by
    apply tokenize_chr_of_append (rstrip reply) wr
    rw [← hwr1]
    exact hr1
  obtain ⟨tws, htws1, htws2⟩ := rstrip_decomp (lstrip convRaw)
  have hclean : strip (convRaw ++ (appendBlock ts el tok resp ++ reply)) =
      strip convRaw ++ (tws ++ (appendBlock ts el tok resp ++ rstrip reply)) := by
    show rstrip (lstrip (convRaw ++ (appendBlock ts el tok resp ++ reply))) = _
    rw [lstrip_append_of_ne convRaw _ hlcne]
    conv_lhs => rw [htws1]
    rw [show (rstrip (lstrip convRaw) ++ tws) ++
        (appendBlock ts el tok resp ++ reply) =
      ((rstrip (lstrip convRaw) ++ tws) ++ appendBlock ts el tok resp) ++ reply
      by simp [List.append_assoc]]
    rw [rstrip_append_of_ne _ reply hrstrip_ne]
    show _ = rstrip (lstrip convRaw) ++ _
    simp [List.append_assoc]
  rw [hclean]
  -- instantiate the general section-append lemma
  have hWws : ∀ x ∈ tws ++ ['\n', '\n'], isWs x = true := by
    intro x hx
    rcases List.mem_append.mp hx with h | h
    · exact htws2 x h
    · simp only [List.mem_cons, List.mem_singleton, List.not_mem_nil, or_false] at h
      rcases h with h | h <;> (rw [h]; decide)
  have hWne : tws ++ ['\n', '\n'] ≠ [] := by simp
  have hA2strip : strip ('\n' :: (statsBody ts el tok ++ '\n' ::
      (strip resp ++ ['\n', '\n']))) =
      strip (statsBody ts el tok ++ '\n' :: strip resp) := by
    rw [show ('\n' :: (statsBody ts el tok ++ '\n' :: (strip resp ++ ['\n', '\n']))) =
      ['\n'] ++ ((statsBody ts el tok ++ '\n' :: strip resp) ++ ['\n', '\n'])
      by simp [List.append_assoc]]
    rw [strip_ws_append _ _ (by decide), strip_append_ws _ _ (by decide)]
  have hA3strip : strip ('\n' :: rstrip reply) = strip reply := by
    rw [show ('\n' :: rstrip reply) = ['\n'] ++ rstrip reply from rfl,
      strip_ws_append _ _ (by decide)]
    exact hstrip_r
  have haine : strip (statsBody ts el tok ++ '\n' :: strip resp) ≠ [] := by
    obtain ⟨tl, htl⟩ := statsBody_head ts el tok
    rw [htl, List.cons_append]
    exact strip_ne_nil_head '#' _ (by decide)
  have htokens : tokenize (strip convRaw ++
      (tws ++ (appendBlock ts el tok resp ++ rstrip reply))) =
      tokenize (strip convRaw) ++
      ((tws ++ ['\n', '\n']).map .chr ++ (.marker .ai ::
        (('\n' :: (statsBody ts el tok ++ '\n' :: (strip resp ++ ['\n', '\n']))).map .chr ++
          .marker .human :: ('\n' :: rstrip reply).map .chr))) := by
    have hmid := tokenize_append_ws_mid (strip convRaw) (tws ++ ['\n', '\n'])
      (aMark ++ '\n' :: (statsBody ts el tok ++ '\n' ::
        (strip resp ++ '\n' :: '\n' :: (hMark ++ '\n' :: rstrip reply)))) hWws hWne
    have hshape : strip convRaw ++
        (tws ++ (appendBlock ts el tok resp ++ rstrip reply)) =
        strip convRaw ++ ((tws ++ ['\n', '\n']) ++
          (aMark ++ '\n' :: (statsBody ts el tok ++ '\n' ::
            (strip resp ++ '\n' :: '\n' :: (hMark ++ '\n' :: rstrip reply))))) := by
      rw [appendBlock_cons_form]
      simp [List.append_assoc]
    rw [hshape, hmid]
    have htokB : tokenize (aMark ++ '\n' :: (statsBody ts el tok ++ '\n' ::
        (strip resp ++ '\n' :: '\n' :: (hMark ++ '\n' :: rstrip reply)))) =
        .marker .ai :: .chr '\n' :: ((statsBody ts el tok).map .chr ++ .chr '\n' ::
          ((strip resp).map .chr ++ .chr '\n' :: .chr '\n' ::
            (.marker .human :: .chr '\n' :: (rstrip reply).map .chr))) := by
      rw [tokenize_aMark_head, tokenize_nl,
        tokenize_append '\n' (by decide) (by decide) (statsBody ts el tok), hsb,
        tokenize_nl, tokenize_append '\n' (by decide) (by decide) (strip resp),
        hresp, tokenize_nl, tokenize_nl, tokenize_hMark_head, tokenize_nl, hr1']
    rw [htokB]
    simp [List.append_assoc, List.map_append, List.map_cons]
  have hmain := sections_append_general (strip convRaw)
    (strip convRaw ++ (tws ++ (appendBlock ts el tok resp ++ rstrip reply))) S hsec
    (tws ++ ['\n', '\n'])
    ('\n' :: (statsBody ts el tok ++ '\n' :: (strip resp ++ ['\n', '\n'])))
    ('\n' :: rstrip reply) hWws (by rw [hA2strip]; exact haine)
    (by rw [hA3strip]; exact hstrip) htokens
  rw [hmain, hA2strip, hA3strip]

theorem C4_witness :
    parse_conversation_sections (strip ("\n---HUMAN---\nhi".toList ++
      (appendBlock "T".toList "1.0".toList none "ok".toList ++
        " next \n".toList))) =
    .ok ([⟨.human, "hi".toList⟩] ++
      [⟨.ai, strip (statsBody "T".toList "1.0".toList none ++ '\n' ::
        strip "ok".toList)⟩, ⟨.human, strip " next \n".toList⟩]) :=
  (C4_append_preserves_turns "a: b\n---\n---HUMAN---\nhi".toList
    "a: b\n".toList "\n---HUMAN---\nhi".toList
    (updateCfg defaultConfig "a".toList (.vstr "b".toList))
    [⟨.human, "hi".toList⟩] "T".toList "1.0".toList "ok".toList
    " next \n".toList none (by decide) (by decide) (by decide) (by decide)
    (by decide) (by decide) (by decide) (by decide)).2.1

example : pyInt? " 1_2 ".toList = some 12 := by decide

example : pyInt? "abc".toList = none := by decide

example : pyFloatOk "-1_0.5e+3".toList = true := by decide

example : pyFloatOk "0.7.2".toList = false := by decide

example : parse_prompt_file "max_tokens: abc\n---\n---HUMAN---\nhi".toList =
    .error .uncaughtValueError := by decide

example : natDigits 107 = "107".toList := by decide

example : tokenize "---HUMAN---hi".toList =
    [.marker .human, .chr 'h', .chr 'i'] := by decide

example : parse_conversation_sections "---HUMAN---\nhi".toList =
    .ok [⟨.human, "hi".toList⟩] := by decide

example : parse_conversation_sections "junk---HUMAN---\nhi".toList =
    .error .mismatchedSections := by decide

example : build_ollama_messages
    [⟨.human, "a".toList⟩, ⟨.ai, "# Generated: x\nb".toList⟩, ⟨.human, "c".toList⟩] =
    [⟨"user".toList, "a".toList⟩, ⟨"assistant".toList, "b".toList⟩,
     ⟨"user".toList, "c".toList⟩] := by decide

end LC
